import Mathlib

/-!
Verification of the SA-Phrase-Search repository: a suffix-array based
phrase-search engine.  Texts and patterns are sequences of wide code units,
modelled as `List Nat` (code units are non-negative integers).  Positions are
`Nat`; the C++ `int` values that can go negative (binary-search cursors,
sentinel results) are modelled as `Int`.

The embedding covers:
* `sa_ps::detail::sa_match` (src/include/sa-match.hpp),
* `sa_ps::detail::grouped_data` and `grouped_match` (src/include/grouped-data.hpp),
* `sa_phrase_search::SuffixArray` with `buildSimple` and `computeLCP`
  (src/include/sa_is.hpp),
* `sa_phrase_search::SAMatcher` (src/include/parser.hpp),
* the partial SA-IS builder `buildSAIS` (src/unnamed/part_001).
-/

set_option maxHeartbeats 1000000

namespace SAPS

/-- Model of `std::char_traits<wchar_t>::compare(s, t, t.size())` where `s`
points into a null-terminated buffer: the first `t.length` code units of
`s` are compared against `t`; when `s` runs out, the comparison continues
against the NUL terminator and the zero-filled region beyond it, i.e. the
exhausted side contributes code unit `0`.  Returns `-1`, `0` or `1`. -/
def ccmp : List Nat → List Nat → Int
  | _, [] => 0
  | [], b :: tb => if b = 0 then ccmp [] tb else -1
  | a :: sa, b :: tb => if a < b then -1 else if b < a then 1 else ccmp sa tb
termination_by _ t => t.length

/-- The midpoint `(l + r) / 2` of the binary-search loop; on the reachable
states both cursors are non-negative, so C++ `int` division agrees with
natural-number division. -/
def midOf (l r : Int) : Nat := (l.toNat + r.toNat) / 2

/-- The binary-search loop `bin` of `sa_ps::detail::sa_match`
(src/include/sa-match.hpp, lines 20-35).  `cmp mid` stands for
`compare(ps + sa[mid], pt, t.size())`; `ans` starts at `-1`.
The guard `0 ≤ l` is an invariant of every reachable state (the loop starts
at `l = 0` and only ever moves `l` to `mid + 1 ≥ 0`); it is made part of the
definition so that the recursion is well founded on all arguments. -/
def binGo (cmp : Nat → Int) (first : Bool) (l r ans : Int) : Int :=
  if h : 0 ≤ l ∧ l ≤ r then
    if cmp (midOf l r) = 0 then
      if first then binGo cmp first l ((midOf l r : Int) - 1) (midOf l r : Int)
      else binGo cmp first ((midOf l r : Int) + 1) r (midOf l r : Int)
    else if 0 < cmp (midOf l r) then binGo cmp first l ((midOf l r : Int) - 1) ans
    else binGo cmp first ((midOf l r : Int) + 1) r ans
  else ans
termination_by (r + 1 - l).toNat
decreasing_by
  all_goals simp only [midOf]
  all_goals omega

/-- The comparison `compare(ps + sa[mid], pt, t.size())` performed at slot
`mid` of the binary search in `sa_match`. -/
def saCmp (s sa t : List Nat) (mid : Nat) : Int := ccmp (s.drop (sa.getD mid 0)) t

/-- The value `ansl = bin(true)` of `sa_match`. -/
def saAnsl (s sa t : List Nat) : Int :=
  binGo (saCmp s sa t) true 0 ((s.length : Int) - 1) (-1)

/-- The value `ansr = bin(false)` of `sa_match`. -/
def saAnsr (s sa t : List Nat) : Int :=
  binGo (saCmp s sa t) false 0 ((s.length : Int) - 1) (-1)

/-- Model of `sa_ps::detail::sa_match(s, sa, t)` (src/include/sa-match.hpp).
The final `std::sort` on the collected positions is modelled by
`List.insertionSort (· ≤ ·)`: the comparator is the total order on `int`,
under which every sorting algorithm produces the same (unique) sorted
permutation. -/
def sa_match (s : List Nat) (sa : List Nat) (t : List Nat) : List Nat :=
  if s.length < t.length then []
  else if s.length = t.length then (if s = t then [0] else [])
  else
    if saAnsl s sa t = -1 then []
    else
      List.insertionSort (· ≤ ·)
        ((List.range (saAnsr s sa t - saAnsl s sa t + 1).toNat).map
          (fun k => sa.getD ((saAnsl s sa t).toNat + k) 0))

/-- Model of `grouped_data<group_type::AND>` (src/include/grouped-data.hpp). -/
structure grouped_dataAND where
  strs : List (List Nat)

/-- Model of `grouped_data<group_type::OR>` (src/include/grouped-data.hpp). -/
structure grouped_dataOR where
  strs : List (List Nat)

/-- Operator `&` on two strings: builds the two-element AND group. -/
def andSS (s1 s2 : List Nat) : grouped_dataAND := ⟨[s1, s2]⟩

/-- Operator `&` on an AND group and a string: copies the group and
appends the string (via `operator&=`, a `push_back`). -/
def andGS (v : grouped_dataAND) (s2 : List Nat) : grouped_dataAND := ⟨v.strs ++ [s2]⟩

/-- Operator `&` on a string and an AND group: the code copies the group
and then appends `s1` with `result &= s1` (a `push_back`), so the string
ends up at the end of the list, not the front. -/
def andSG (s1 : List Nat) (v : grouped_dataAND) : grouped_dataAND := ⟨v.strs ++ [s1]⟩

/-- Operator `|` on two strings: builds the two-element OR group. -/
def orSS (s1 s2 : List Nat) : grouped_dataOR := ⟨[s1, s2]⟩

/-- Operator `|` on an OR group and a string. -/
def orGS (v : grouped_dataOR) (s2 : List Nat) : grouped_dataOR := ⟨v.strs ++ [s2]⟩

/-- Operator `|` on a string and an OR group: appends the string at the end. -/
def orSG (s1 : List Nat) (v : grouped_dataOR) : grouped_dataOR := ⟨v.strs ++ [s1]⟩

/-- The two-pointer merge body of the AND `grouped_match` loop
(src/include/grouped-data.hpp, lines 72-86): on a proximity match emit the
smaller position and advance both cursors; otherwise drop the smaller head. -/
def combineAND : List Nat → List Nat → Int → List Nat
  | a :: as, b :: bs, md =>
    if |(a : Int) - (b : Int)| ≤ md then
      min a b :: combineAND as bs md
    else if a < b then combineAND as (b :: bs) md
    else combineAND (a :: as) bs md
  | _, _, _ => []
termination_by a b _ => a.length + b.length

/-- The two-pointer merge body of the OR `grouped_match` loop
(src/include/grouped-data.hpp, lines 103-125), including the two drain
loops that flush whichever list is left over. -/
def combineOR : List Nat → List Nat → Int → List Nat
  | [], bs, _ => bs
  | a :: as, [], _ => a :: as
  | a :: as, b :: bs, md =>
    if |(a : Int) - (b : Int)| ≤ md then
      min a b :: combineOR as bs md
    else if a < b then a :: combineOR as (b :: bs) md
    else b :: combineOR (a :: as) bs md
termination_by a b _ => a.length + b.length

/-- Model of `grouped_match` for AND groups (src/include/grouped-data.hpp,
lines 61-91): an empty group yields every position `0..n`; otherwise the
per-pattern occurrence lists are folded left to right through the merge. -/
def grouped_matchAND (str : List Nat) (sa : List Nat) (data : grouped_dataAND)
    (md : Int) : List Nat :=
  match data.strs with
  | [] => List.range str.length
  | p :: ps => ps.foldl (fun acc q => combineAND acc (sa_match str sa q) md)
      (sa_match str sa p)

/-- Model of `grouped_match` for OR groups (src/include/grouped-data.hpp,
lines 92-132). -/
def grouped_matchOR (str : List Nat) (sa : List Nat) (data : grouped_dataOR)
    (md : Int) : List Nat :=
  match data.strs with
  | [] => List.range str.length
  | p :: ps => ps.foldl (fun acc q => combineOR acc (sa_match str sa q) md)
      (sa_match str sa p)

end SAPS

namespace SAPhraseSearch

/-- The code-unit lexicographic strict order on suffixes used by the spec:
`suffix(a) < suffix(b)` with a proper prefix comparing smaller. -/
def suffixLex (s : List Nat) (a b : Nat) : Prop :=
  List.Lex (· < ·) (s.drop a) (s.drop b)

instance suffixLex_trans (s : List Nat) : IsTrans Nat (suffixLex s) where
  trans _ _ _ h1 h2 := trans_of (List.Lex (· < ·)) h1 h2

/-- The suffix comparator of `SuffixArray::buildSimple` (src/include/sa_is.hpp,
lines 38-48), expressed on the two suffixes themselves: scan while both are
in range, decide at the first differing code unit, and when the scan falls
off the end of one suffix the shorter one (a proper prefix) compares smaller. -/
def listLtB : List Nat → List Nat → Bool
  | _, [] => false
  | [], _ :: _ => true
  | a :: as, b :: bs => if a < b then true else if b < a then false else listLtB as bs

/-- The reflexive closure of the `buildSimple` comparator:
`a` may stay before `b` exactly when the comparator does not strictly order
`b` before `a`. -/
def simpleLe (s : List Nat) (a b : Nat) : Prop :=
  ¬ listLtB (s.drop b) (s.drop a) = true

instance simpleLe_dec (s : List Nat) : DecidableRel (simpleLe s) := fun _ _ =>
  inferInstanceAs (Decidable (¬ _ = true))

/-- Model of `SuffixArray::buildSimple` (src/include/sa_is.hpp, lines 30-49):
the index list `[0, …, n)` sorted by the suffix comparator.  `std::sort`
with a strict total order produces the unique sorted permutation, so it is
modelled by insertion sort under the reflexive closure of the comparator. -/
def buildSimple (s : List Nat) : List Nat :=
  List.insertionSort (simpleLe s) (List.range s.length)

/-- Length of the longest common prefix of two code-unit sequences; this is
what the extension loop of Kasai's algorithm computes. -/
def lcpLen : List Nat → List Nat → Nat
  | a :: as, b :: bs => if a = b then lcpLen as bs + 1 else 0
  | [], _ => 0
  | _ :: _, [] => 0

/-- The extension loop of `SuffixArray::computeLCP` (src/include/sa_is.hpp,
lines 63-65): `while (i + h < n && j + h < n && text[i+h] == text[j+h]) h++`. -/
def kasaiExtend (s : List Nat) (i j : Nat) (h : Nat) : Nat :=
  if i + h < s.length ∧ j + h < s.length ∧ s.getD (i + h) 0 = s.getD (j + h) 0 then
    kasaiExtend s i j (h + 1)
  else h
termination_by s.length - h
decreasing_by omega

/-- The rank-array construction loop of `computeLCP` (src/include/sa_is.hpp,
lines 57-59): `for i: rank[sa[i]] = i` starting from a zero-filled vector. -/
def mkRank (sa : List Nat) : List Nat :=
  (List.range sa.length).foldl (fun r k => r.set (sa.getD k 0) k)
    (List.replicate sa.length 0)

/-- One iteration of the main loop of `computeLCP` (src/include/sa_is.hpp,
lines 61-70), acting on the state `(h, lcp)`. -/
def kasaiStep (s : List Nat) (sa rank : List Nat) (st : Nat × List Nat) (i : Nat) :
    Nat × List Nat :=
  if 0 < rank.getD i 0 then
    (if 0 < kasaiExtend s i (sa.getD (rank.getD i 0 - 1) 0) st.1 then
        kasaiExtend s i (sa.getD (rank.getD i 0 - 1) 0) st.1 - 1
      else kasaiExtend s i (sa.getD (rank.getD i 0 - 1) 0) st.1,
      st.2.set (rank.getD i 0) (kasaiExtend s i (sa.getD (rank.getD i 0 - 1) 0) st.1))
  else st

/-- Model of `SuffixArray::computeLCP` (src/include/sa_is.hpp, lines 52-73). -/
def computeLCP (s : List Nat) (sa : List Nat) : List Nat :=
  ((List.range sa.length).foldl (kasaiStep s sa (mkRank sa))
    (0, List.replicate sa.length 0)).2

/-- The state of the main loop of `computeLCP` after its first `m`
iterations; `computeLCP` is the second component at `m = sa.length`. -/
def kasaiPartial (s sa : List Nat) (m : Nat) : Nat × List Nat :=
  (List.range m).foldl (kasaiStep s sa (mkRank sa))
    (0, List.replicate sa.length 0)

/-- Model of the `SuffixArray` constructor of src/include/sa_is.hpp
(lines 81-89): for `n = 0` the resized (empty) array is returned untouched,
otherwise `buildSimple` fills it.  (`buildSimple` on an empty text also
yields `[]`, so no case split is needed.) -/
def SuffixArrayBuild (s : List Nat) : List Nat := buildSimple s

/-- Model of `SAMatcher::comparePattern` (src/include/parser.hpp, lines
487-493) as a function of the pattern and the suffix `T[pos..)`: compare
code unit by code unit; if the pattern is longer than the suffix, the
pattern compares greater. -/
def cpList : List Nat → List Nat → Int
  | [], _ => 0
  | _ :: _, [] => 1
  | c :: cs, a :: as => if c < a then -1 else if a < c then 1 else cpList cs as

/-- The binary-search loop shared by `SAMatcher::findLeft` and
`SAMatcher::findRight` (src/include/parser.hpp, lines 505-538).  With
`upper = false` the cursor moves right while `cmp mid > 0` (findLeft), with
`upper = true` while `cmp mid ≥ 0` (findRight). -/
def midN (l r : Nat) : Nat := l + (r - l) / 2

def findLoop (cmp : Nat → Int) (upper : Bool) (l r : Nat) : Nat :=
  if l < r then
    if (if upper then 0 ≤ cmp (midN l r) else 0 < cmp (midN l r)) then
      findLoop cmp upper (midN l r + 1) r
    else findLoop cmp upper l (midN l r)
  else l
termination_by r - l
decreasing_by
  all_goals simp only [midN]
  all_goals omega

/-- The comparison used by the matcher at suffix-array slot `i`. -/
def matcherCmp (s sa p : List Nat) (i : Nat) : Int := cpList p (s.drop (sa.getD i 0))

/-- Model of `SAMatcher::findAll` (src/include/parser.hpp, lines 554-572):
guard the empty pattern and the empty text, then collect
`sa[findLeft .. findRight)` and sort ascending. -/
def findAll (s sa p : List Nat) : List Nat :=
  if p.length = 0 ∨ s.length = 0 then []
  else
    let left := findLoop (matcherCmp s sa p) false 0 sa.length
    let right := findLoop (matcherCmp s sa p) true 0 sa.length
    List.insertionSort (· ≤ ·)
      ((List.range (right - left)).map (fun k => sa.getD (left + k) 0))

/-- Model of `SAMatcher::exists` (src/include/parser.hpp, lines 580-590). -/
def existsPattern (s sa p : List Nat) : Bool :=
  if p.length = 0 ∨ s.length = 0 then false
  else
    findLoop (matcherCmp s sa p) false 0 sa.length <
      findLoop (matcherCmp s sa p) true 0 sa.length

/-- Model of `SAMatcher::count` (src/include/parser.hpp, lines 598-607);
the result is the `int` difference `right - left`. -/
def countP (s sa p : List Nat) : Int :=
  if p.length = 0 ∨ s.length = 0 then 0
  else
    (findLoop (matcherCmp s sa p) true 0 sa.length : Int) -
      (findLoop (matcherCmp s sa p) false 0 sa.length : Int)

/-- Model of `SuffixArray::computeTypes` (src/unnamed/part_001, lines 29-42):
`types[i] = true` for L-type, `false` for S-type, computed right to left with
the inheritance rule on equal code units. -/
def computeTypes : List Nat → List Bool
  | [] => []
  | [_] => [false]
  | a :: b :: rest =>
    let ts := computeTypes (b :: rest)
    (if a < b then false else if b < a then true else ts.headD false) :: ts

/-- LMS test of src/unnamed/part_001 (lines 76-79): position `i > 0` that is
S-type with an L-type predecessor. -/
def isLMS (types : List Bool) (i : Nat) : Bool :=
  if i = 0 then false else !(types.getD i false) && types.getD (i - 1) false

/-- The bucket-counting loop of `buildSAIS` (src/unnamed/part_001, lines
95-98): `for i: buckets[s[i]]++` on a zero vector of length `alphabet_size`. -/
def bucketCounts (s : List Nat) (alpha : Nat) : List Nat :=
  s.foldl (fun b c => b.set c (b.getD c 0 + 1)) (List.replicate alpha 0)

/-- The prefix-sum loop of `buildSAIS` (src/unnamed/part_001, lines 100-108)
producing `(bucket_starts, bucket_ends)`. -/
def bucketBounds (buckets : List Nat) : List Nat × List Nat :=
  let st := buckets.foldl
    (fun st cnt =>
      let sum := st.2.2
      (st.1 ++ [sum], st.2.1 ++ [sum + cnt], sum + cnt))
    (([], [], 0) : List Nat × List Nat × Nat)
  (st.1, st.2.1)

/-- The LMS placement loop of `induceSort` (src/unnamed/part_001, lines
52-58): iterate `i = n-1 … 0`, and for each LMS position decrement the tail
cursor of bucket `s[i]` and store `i` there.  State: `(bucket_tails, sa)`. -/
def placeLMS (s : List Nat) (types : List Bool) (n : Nat)
    (tails0 : List Nat) (sa0 : List Int) : List Nat × List Int :=
  (List.range n).reverse.foldl
    (fun st i =>
      if isLMS types i then
        let c := s.getD i 0
        let t := st.1.getD c 0 - 1
        (st.1.set c t, st.2.set t (i : Int))
      else st)
    (tails0, sa0)

/-- The L-induction scan of `induceSort` (src/unnamed/part_001, lines 60-66):
left to right, if `sa[i] > 0` and `types[sa[i]-1]` is L, place `sa[i]-1` at
the head cursor of its bucket and advance the cursor. -/
def induceL (s : List Nat) (types : List Bool) (n : Nat)
    (heads0 : List Nat) (sa0 : List Int) : List Int :=
  ((List.range n).foldl
    (fun st i =>
      let v := st.2.getD i 0
      if 0 < v ∧ types.getD (v - 1).toNat false then
        let c := s.getD (v - 1).toNat 0
        let hdc := st.1.getD c 0
        (st.1.set c (hdc + 1), st.2.set hdc (v - 1))
      else st)
    (heads0, sa0)).2

/-- The S-induction scan of `induceSort` (src/unnamed/part_001, lines 68-74):
right to left, if `sa[i] > 0` and `types[sa[i]-1]` is S, place `sa[i]-1` at
the (decremented) tail cursor of its bucket. -/
def induceS (s : List Nat) (types : List Bool) (n : Nat)
    (tails0 : List Nat) (sa0 : List Int) : List Int :=
  ((List.range n).reverse.foldl
    (fun st i =>
      let v := st.2.getD i 0
      if 0 < v ∧ !(types.getD (v - 1).toNat false) then
        let c := s.getD (v - 1).toNat 0
        let t := st.1.getD c 0 - 1
        (st.1.set c t, st.2.set t (v - 1))
      else st)
    (tails0, sa0)).2

/-- Model of `SuffixArray::induceSort` (src/unnamed/part_001, lines 45-74):
fill `sa` with `-1`, place the LMS positions, then run the L-scan and the
S-scan. -/
def induceSort (s : List Nat) (types : List Bool) (n : Nat)
    (starts ends : List Nat) : List Int :=
  let sa1 := (placeLMS s types n ends (List.replicate n (-1))).2
  let sa2 := induceL s types n starts sa1
  induceS s types n ends sa2

/-- Model of `SuffixArray::buildSAIS` (src/unnamed/part_001, lines 83-115):
the single-pass partial SA-IS (typing, bucketing, one induced sort; no LMS
naming and no recursion). -/
def buildSAIS (s : List Nat) (alpha : Nat) : List Int :=
  let n := s.length
  if n = 0 then []
  else if n = 1 then [0]
  else
    let types := computeTypes s
    let bounds := bucketBounds (bucketCounts s alpha)
    induceSort s types n bounds.1 bounds.2

/-- Model of the `SuffixArray` constructor of src/unnamed/part_001 (lines
146-163): compute `alphabet_size = max code unit + 1` and call `buildSAIS`. -/
def SuffixArrayBuildSAIS (s : List Nat) : List Int :=
  buildSAIS s (s.foldl max 0 + 1)

end SAPhraseSearch

namespace SAPhraseSearch

theorem listLtB_iff : ∀ x y : List Nat, listLtB x y = true ↔ List.Lex (· < ·) x y
  | _, [] => by
    simp only [listLtB, List.Lex.not_nil_right, iff_false]
    intro h
    exact Bool.false_ne_true h
  | [], _ :: _ => by
    simp only [listLtB, true_iff]
    exact List.Lex.nil
  | a :: as, b :: bs => by
    simp only [listLtB]
    by_cases h1 : a < b
    · simp only [if_pos h1]
      constructor
      · intro _
        exact List.Lex.rel h1
      · intro _
        trivial
    · by_cases h2 : b < a
      · simp only [if_neg h1, if_pos h2]
        constructor
        · intro h
          exact absurd h Bool.false_ne_true
        · intro h
          cases h with
          | cons h => omega
          | rel h => omega
      · have hab : a = b := by omega
        subst hab
        simp only [if_neg h1, if_neg h2]
        rw [listLtB_iff as bs]
        constructor
        · exact List.Lex.cons
        · intro h
          cases h with
          | cons h => exact h
          | rel h => omega

instance suffixLex_dec (s : List Nat) : DecidableRel (suffixLex s) := fun a b =>
  decidable_of_iff (listLtB (s.drop a) (s.drop b) = true) (listLtB_iff _ _)

theorem lexNat_trans {x y z : List Nat} (h1 : List.Lex (· < ·) x y)
    (h2 : List.Lex (· < ·) y z) : List.Lex (· < ·) x z :=
  trans_of (List.Lex (· < ·)) h1 h2

theorem lexNat_asymm {x y : List Nat} (h1 : List.Lex (· < ·) x y) :
    ¬ List.Lex (· < ·) y x :=
  asymm_of (List.Lex (· < ·)) h1

theorem lexNat_trichotomy (x y : List Nat) :
    List.Lex (· < ·) x y ∨ x = y ∨ List.Lex (· < ·) y x :=
  trichotomous_of (List.Lex (· < ·)) x y

instance simpleLe_total (s : List Nat) : IsTotal Nat (simpleLe s) where
  total a b := by
    unfold simpleLe
    rcases lexNat_trichotomy (s.drop a) (s.drop b) with h | h | h
    · left
      rw [listLtB_iff]
      exact lexNat_asymm h
    · left
      rw [listLtB_iff, h]
      exact fun hc => (lexNat_asymm hc) hc
    · right
      rw [listLtB_iff]
      exact lexNat_asymm h

instance simpleLe_trans (s : List Nat) : IsTrans Nat (simpleLe s) where
  trans a b c hab hbc := by
    unfold simpleLe at *
    rw [listLtB_iff] at *
    intro hca
    rcases lexNat_trichotomy (s.drop a) (s.drop b) with h | h | h
    · exact hbc (lexNat_trans hca h)
    · rw [h] at hca
      exact hbc hca
    · exact hab h

theorem buildSimple_perm (s : List Nat) :
    (buildSimple s).Perm (List.range s.length) :=
  List.perm_insertionSort _ _

theorem buildSimple_sorted (s : List Nat) :
    (buildSimple s).Sorted (simpleLe s) :=
  List.sorted_insertionSort _ _

theorem buildSimple_mem_lt {s : List Nat} {a : Nat} (h : a ∈ buildSimple s) :
    a < s.length := by
  have := (buildSimple_perm s).mem_iff.mp h
  exact List.mem_range.mp this

theorem buildSimple_chain (s : List Nat) :
    List.Chain' (suffixLex s) (buildSimple s) := by
  have hs : (buildSimple s).Pairwise (simpleLe s) := buildSimple_sorted s
  have hn : (buildSimple s).Pairwise (· ≠ ·) :=
    (buildSimple_perm s).nodup_iff.mpr (List.nodup_range _)
  have hmem : ∀ a ∈ buildSimple s, a < s.length := fun _ ha => buildSimple_mem_lt ha
  apply List.Pairwise.chain'
  have hsm := List.Pairwise.and_mem.mp hs
  have hcomb := hsm.and hn
  apply hcomb.imp
  intro a b hab
  obtain ⟨⟨ha, hb, hle⟩, hne⟩ := hab
  unfold simpleLe at hle
  rw [listLtB_iff] at hle
  rcases lexNat_trichotomy (s.drop a) (s.drop b) with h | h | h
  · exact h
  · exfalso
    apply hne
    have hlen := congrArg List.length h
    simp only [List.length_drop] at hlen
    have ha' := hmem a ha
    have hb' := hmem b hb
    omega
  · exact absurd h hle

/-- C6: for every text `T` of length `n`, the `SuffixArray` constructor
(src/include/sa_is.hpp, via `buildSimple`) produces an array of length `n`
that is a permutation of `[0, n)` and whose consecutive entries index
strictly lexicographically increasing suffixes (proper prefixes smaller). -/
theorem C6_suffix_array_invariants (s : List Nat) :
    (SuffixArrayBuild s).length = s.length ∧
      (SuffixArrayBuild s).Perm (List.range s.length) ∧
      List.Chain' (suffixLex s) (SuffixArrayBuild s) := by
  refine ⟨?_, buildSimple_perm s, buildSimple_chain s⟩
  show (buildSimple s).length = s.length
  rw [(buildSimple_perm s).length_eq, List.length_range]

/-- C3 counterexample: on the two-unit text `[0,1]` the partial SA-IS
builder leaves both slots unfilled (`[-1,-1]`) while the comparison-sort
builder returns the correct suffix array `[0,1]`. -/
theorem C3_counterexample :
    ¬ ((buildSimple [0, 1]).map (fun k => (k : Int)) = SuffixArrayBuildSAIS [0, 1]) := by
  decide

/-- C3 amended: the two construction variants agree on every text of length
at most one; already at the text `[0,1]` they differ (the partial SA-IS pass
never places a suffix when the text has no LMS position), so they are not
conformance-identical in general. -/
theorem C3_agree_short (s : List Nat) (h : s.length ≤ 1) :
    (buildSimple s).map (fun k => (k : Int)) = SuffixArrayBuildSAIS s := by
  match s, h with
  | [], _ => rfl
  | [a], _ => rfl

/-- C3 witness: the agreement theorem applied to the one-unit text `[5]`. -/
theorem C3_agree_short_witness :
    (buildSimple [5]).map (fun k => (k : Int)) = SuffixArrayBuildSAIS [5] :=
  C3_agree_short [5] (by decide)

theorem cpList_bounds : ∀ (p x : List Nat), -1 ≤ cpList p x ∧ cpList p x ≤ 1
  | [], _ => by
    rw [cpList]
    omega
  | c :: cs, [] => by
    rw [cpList]
    omega
  | c :: cs, a :: xs => by
    rw [cpList]
    split_ifs with h1 h2
    · omega
    · omega
    · exact cpList_bounds cs xs

theorem cpList_anti {x y : List Nat} (hxy : List.Lex (· < ·) x y) :
    ∀ p, cpList p y ≤ cpList p x := by
  induction hxy with
  | @nil a l =>
    intro p
    cases p with
    | nil =>
      rw [cpList, cpList]
    | cons c cs =>
      conv_rhs => rw [cpList]
      exact (cpList_bounds (c :: cs) (a :: l)).2
  | @cons a l1 l2 h ih =>
    intro p
    cases p with
    | nil =>
      rw [cpList, cpList]
    | cons c cs =>
      rw [cpList]
      conv_rhs => rw [cpList]
      have := ih cs
      split_ifs <;> omega
  | @rel a l1 b l2 hab =>
    intro p
    cases p with
    | nil =>
      rw [cpList, cpList]
    | cons c cs =>
      rw [cpList]
      conv_rhs => rw [cpList]
      have hb1 := cpList_bounds cs l1
      have hb2 := cpList_bounds cs l2
      split_ifs <;> omega

theorem midN_bounds {l r : Nat} (h : l < r) : l ≤ midN l r ∧ midN l r < r := by
  simp only [midN]
  omega

theorem findLoop_false_spec (cmp : Nat → Int) (n : Nat)
    (anti : ∀ i j : Nat, i ≤ j → j < n → cmp j ≤ cmp i) :
    ∀ l r : Nat, l ≤ r → r ≤ n →
      (∀ i : Nat, i < l → 0 < cmp i) →
      (∀ i : Nat, r ≤ i → i < n → ¬ 0 < cmp i) →
      (findLoop cmp false l r ≤ r ∧ l ≤ findLoop cmp false l r ∧
        (∀ i : Nat, i < findLoop cmp false l r → 0 < cmp i) ∧
        (∀ i : Nat, findLoop cmp false l r ≤ i → i < n → ¬ 0 < cmp i))
  | l, r, hlr, hrn, inv1, inv2 => by
    rw [findLoop]
    simp only [Bool.false_eq_true, if_false]
    split_ifs with hg hmid
    · have hm := midN_bounds hg
      have hres := findLoop_false_spec cmp n anti (midN l r + 1) r (by omega) hrn
        (by
          intro i hi
          have := anti i (midN l r) (by omega) (by omega)
          omega)
        inv2
      exact ⟨hres.1, by omega, hres.2.2⟩
    · have hm := midN_bounds hg
      have hres := findLoop_false_spec cmp n anti l (midN l r) (by omega)
        (by omega) inv1
        (by
          intro i hi hin hcon
          have := anti (midN l r) i hi hin
          omega)
      exact ⟨by omega, hres.2.1, hres.2.2⟩
    · exact ⟨by omega, le_refl l, inv1, fun i hi hin => inv2 i (by omega) hin⟩
termination_by l r => r - l
decreasing_by
  all_goals simp only [midN]
  all_goals omega

theorem findLoop_true_spec (cmp : Nat → Int) (n : Nat)
    (anti : ∀ i j : Nat, i ≤ j → j < n → cmp j ≤ cmp i) :
    ∀ l r : Nat, l ≤ r → r ≤ n →
      (∀ i : Nat, i < l → 0 ≤ cmp i) →
      (∀ i : Nat, r ≤ i → i < n → ¬ 0 ≤ cmp i) →
      (findLoop cmp true l r ≤ r ∧ l ≤ findLoop cmp true l r ∧
        (∀ i : Nat, i < findLoop cmp true l r → 0 ≤ cmp i) ∧
        (∀ i : Nat, findLoop cmp true l r ≤ i → i < n → ¬ 0 ≤ cmp i))
  | l, r, hlr, hrn, inv1, inv2 => by
    rw [findLoop]
    simp only [if_true]
    split_ifs with hg hmid
    · have hm := midN_bounds hg
      have hres := findLoop_true_spec cmp n anti (midN l r + 1) r (by omega) hrn
        (by
          intro i hi
          have := anti i (midN l r) (by omega) (by omega)
          omega)
        inv2
      exact ⟨hres.1, by omega, hres.2.2⟩
    · have hm := midN_bounds hg
      have hres := findLoop_true_spec cmp n anti l (midN l r) (by omega)
        (by omega) inv1
        (by
          intro i hi hin hcon
          have := anti (midN l r) i hi hin
          omega)
      exact ⟨by omega, hres.2.1, hres.2.2⟩
    · exact ⟨by omega, le_refl l, inv1, fun i hi hin => inv2 i (by omega) hin⟩
termination_by l r => r - l
decreasing_by
  all_goals simp only [midN]
  all_goals omega

theorem matcherCmp_anti (s sa p : List Nat)
    (hch : List.Chain' (suffixLex s) sa) :
    ∀ i j : Nat, i ≤ j → j < sa.length →
      matcherCmp s sa p j ≤ matcherCmp s sa p i := by
  intro i j hij hj
  rcases Nat.eq_or_lt_of_le hij with rfl | hlt
  · exact le_refl _
  · have hp : sa.Pairwise (suffixLex s) := List.chain'_iff_pairwise.mp hch
    have hi : i < sa.length := by omega
    have hrel := List.pairwise_iff_get.mp hp ⟨i, hi⟩ ⟨j, hj⟩ hlt
    show cpList p (s.drop (sa.getD j 0)) ≤ cpList p (s.drop (sa.getD i 0))
    rw [List.getD_eq_get sa 0 hi, List.getD_eq_get sa 0 hj]
    exact cpList_anti hrel p

/-- C10: for every pattern, `SAMatcher::count` equals the length of
`SAMatcher::findAll`, and `SAMatcher::exists` holds exactly when `findAll`
is non-empty, over any suffix array with lexicographically sorted
suffixes. -/
theorem C10_matcher_consistency (s sa p : List Nat)
    (hch : List.Chain' (suffixLex s) sa) :
    countP s sa p = ((findAll s sa p).length : Int) ∧
      (existsPattern s sa p = true ↔ findAll s sa p ≠ []) := by
  by_cases hg : p.length = 0 ∨ s.length = 0
  · rw [countP, findAll, existsPattern, if_pos hg, if_pos hg, if_pos hg]
    simp
  · rw [countP, findAll, existsPattern, if_neg hg, if_neg hg, if_neg hg]
    have anti := matcherCmp_anti s sa p hch
    have hL := findLoop_false_spec (matcherCmp s sa p) sa.length anti 0 sa.length
      (by omega) (le_refl _) (by intro i hi; omega)
      (by intro i h1 h2; omega)
    have hR := findLoop_true_spec (matcherCmp s sa p) sa.length anti 0 sa.length
      (by omega) (le_refl _) (by intro i hi; omega)
      (by intro i h1 h2; omega)
    have hLR : findLoop (matcherCmp s sa p) false 0 sa.length ≤
        findLoop (matcherCmp s sa p) true 0 sa.length := by
      by_contra hcon
      push_neg at hcon
      have hRlt : findLoop (matcherCmp s sa p) true 0 sa.length < sa.length := by
        have := hL.1
        omega
      have h1 := hL.2.2.1 (findLoop (matcherCmp s sa p) true 0 sa.length) hcon
      have h2 := hR.2.2.2 (findLoop (matcherCmp s sa p) true 0 sa.length)
        (le_refl _) hRlt
      omega
    have hlen : ((List.insertionSort (· ≤ ·)
        ((List.range (findLoop (matcherCmp s sa p) true 0 sa.length -
          findLoop (matcherCmp s sa p) false 0 sa.length)).map
          (fun k => sa.getD (findLoop (matcherCmp s sa p) false 0 sa.length + k)
            0))).length) =
        findLoop (matcherCmp s sa p) true 0 sa.length -
          findLoop (matcherCmp s sa p) false 0 sa.length := by
      rw [(List.perm_insertionSort (· ≤ ·) _).length_eq, List.length_map,
        List.length_range]
    constructor
    · rw [hlen]
      omega
    · rw [decide_eq_true_iff]
      constructor
      · intro h hcon
        have hlen2 := congrArg List.length hcon
        rw [hlen] at hlen2
        simp only [List.length_nil] at hlen2
        omega
      · intro h
        by_contra hcon
        push_neg at hcon
        apply h
        have hz : findLoop (matcherCmp s sa p) true 0 sa.length -
            findLoop (matcherCmp s sa p) false 0 sa.length = 0 := by omega
        rw [← List.length_eq_zero, hlen, hz]

/-- C10 witness: the "banana" text with pattern "na". -/
theorem C10_matcher_consistency_witness :
    countP [2,1,3,1,3,1] [5,3,1,0,4,2] [3,1] =
        ((findAll [2,1,3,1,3,1] [5,3,1,0,4,2] [3,1]).length : Int) ∧
      (existsPattern [2,1,3,1,3,1] [5,3,1,0,4,2] [3,1] = true ↔
        findAll [2,1,3,1,3,1] [5,3,1,0,4,2] [3,1] ≠ []) :=
  C10_matcher_consistency [2,1,3,1,3,1] [5,3,1,0,4,2] [3,1]
    (by simp only [List.chain'_cons, List.chain'_singleton, and_true]; decide)

theorem lcpLen_comm : ∀ x y : List Nat, lcpLen x y = lcpLen y x
  | [], [] => rfl
  | [], _ :: _ => rfl
  | _ :: _, [] => rfl
  | a :: xs, b :: ys => by
    rw [lcpLen, lcpLen]
    by_cases h : a = b
    · rw [if_pos h, if_pos h.symm, lcpLen_comm xs ys]
    · rw [if_neg h, if_neg (fun hc => h hc.symm)]

theorem lcpLen_le_left : ∀ x y : List Nat, lcpLen x y ≤ x.length
  | [], _ => by
    rw [lcpLen]
    omega
  | _ :: _, [] => by
    rw [lcpLen]
    omega
  | a :: xs, b :: ys => by
    rw [lcpLen]
    split_ifs
    · have := lcpLen_le_left xs ys
      simp only [List.length_cons]
      omega
    · omega

theorem lcpLen_self : ∀ x : List Nat, lcpLen x x = x.length
  | [] => rfl
  | a :: xs => by
    rw [lcpLen, if_pos rfl, lcpLen_self xs]
    rfl

theorem lcpLen_cons_eq (c : Nat) (x y : List Nat) :
    lcpLen (c :: x) (c :: y) = lcpLen x y + 1 := by
  rw [lcpLen, if_pos rfl]

theorem lcpLen_pos_inv : ∀ {x y : List Nat}, 0 < lcpLen x y →
    ∃ c x2 y2, x = c :: x2 ∧ y = c :: y2
  | [], y, h => by
    rw [lcpLen] at h
    omega
  | x :: xs, [], h => by
    rw [lcpLen] at h
    omega
  | a :: xs, b :: ys, h => by
    rw [lcpLen] at h
    split_ifs at h with hab
    · exact ⟨a, xs, ys, rfl, by rw [hab]⟩
    · omega

theorem lcpLen_add : ∀ (h : Nat) (x y : List Nat), h ≤ lcpLen x y →
    lcpLen x y = h + lcpLen (x.drop h) (y.drop h)
  | 0, x, y, _ => by simp
  | h + 1, x, y, hle => by
    have hpos : 0 < lcpLen x y := by omega
    obtain ⟨c, x2, y2, rfl, rfl⟩ := lcpLen_pos_inv hpos
    rw [lcpLen_cons_eq] at hle ⊢
    have := lcpLen_add h x2 y2 (by omega)
    simp only [List.drop_succ_cons]
    omega

theorem lex_lcp_mono_strict : ∀ (w u v : List Nat),
    List.Lex (· < ·) u v → List.Lex (· < ·) v w → lcpLen u w ≤ lcpLen v w
  | [], _, v, _, hvw => absurd hvw (List.Lex.not_nil_right _ _)
  | c :: ws, [], v, _, _ => by
    rw [lcpLen]
    omega
  | c :: ws, a :: us, [], huv, _ => absurd huv (List.Lex.not_nil_right _ _)
  | c :: ws, a :: us, b :: vs, huv, hvw => by
    have hab : a < b ∨ (a = b ∧ List.Lex (· < ·) us vs) := by
      cases huv with
      | cons h => exact Or.inr ⟨rfl, h⟩
      | rel h => exact Or.inl h
    have hbc : b < c ∨ (b = c ∧ List.Lex (· < ·) vs ws) := by
      cases hvw with
      | cons h => exact Or.inr ⟨rfl, h⟩
      | rel h => exact Or.inl h
    rcases hab with hab | habt
    · have hz : lcpLen (a :: us) (c :: ws) = 0 := by
        rw [lcpLen, if_neg]
        rcases hbc with h | ⟨rfl, _⟩ <;> omega
      omega
    · obtain ⟨rfl, htail⟩ := habt
      rcases hbc with hbc | hbct
      · have hz : lcpLen (a :: us) (c :: ws) = 0 := by
          rw [lcpLen, if_neg]
          omega
        omega
      · obtain ⟨rfl, htail2⟩ := hbct
        rw [lcpLen_cons_eq, lcpLen_cons_eq]
        have := lex_lcp_mono_strict ws us vs htail htail2
        omega

theorem lex_lcp_mono (w u v : List Nat)
    (huv : List.Lex (· < ·) u v ∨ u = v)
    (hvw : List.Lex (· < ·) v w ∨ v = w) :
    lcpLen u w ≤ lcpLen v w := by
  rcases huv with huv | rfl
  · rcases hvw with hvw | rfl
    · exact lex_lcp_mono_strict w u v huv hvw
    · rw [lcpLen_self]
      rw [lcpLen_comm]
      exact lcpLen_le_left _ _
  · exact le_refl _

theorem drop_cons_getD (s : List Nat) (p : Nat) (hp : p < s.length) :
    s.drop p = s.getD p 0 :: s.drop (p + 1) := by
  rw [List.drop_eq_getElem_cons hp, List.getD_eq_getElem s 0 hp]

theorem kasaiExtend_spec (s : List Nat) (i j : Nat) : ∀ h : Nat,
    kasaiExtend s i j h = h + lcpLen (s.drop (i + h)) (s.drop (j + h))
  | h => by
    rw [kasaiExtend]
    split_ifs with hg
    · obtain ⟨h1, h2, h3⟩ := hg
      rw [kasaiExtend_spec s i j (h + 1)]
      rw [drop_cons_getD s (i + h) h1, drop_cons_getD s (j + h) h2, h3,
        lcpLen_cons_eq]
      have hii : i + (h + 1) = i + h + 1 := by omega
      have hjj : j + (h + 1) = j + h + 1 := by omega
      rw [hii, hjj]
      omega
    · have hz : lcpLen (s.drop (i + h)) (s.drop (j + h)) = 0 := by
        by_cases hi : i + h < s.length
        · by_cases hj : j + h < s.length
          · have hne : s.getD (i + h) 0 ≠ s.getD (j + h) 0 := by
              intro hc
              exact hg ⟨hi, hj, hc⟩
            rw [drop_cons_getD s (i + h) hi, drop_cons_getD s (j + h) hj]
            rw [lcpLen, if_neg hne]
          · have : s.drop (j + h) = [] := List.drop_eq_nil_of_le (by omega)
            rw [this, lcpLen_comm, lcpLen]
        · have : s.drop (i + h) = [] := List.drop_eq_nil_of_le (by omega)
          rw [this, lcpLen]
      rw [hz]
      rfl
termination_by h => s.length - h
decreasing_by omega

theorem lex_tail (s : List Nat) (p i : Nat) (hp : p < s.length)
    (hi : i < s.length) (heq : s.getD p 0 = s.getD i 0)
    (hlex : List.Lex (· < ·) (s.drop p) (s.drop i)) :
    List.Lex (· < ·) (s.drop (p + 1)) (s.drop (i + 1)) := by
  rw [drop_cons_getD s p hp, drop_cons_getD s i hi, heq] at hlex
  cases hlex with
  | cons h => exact h
  | rel h => omega

theorem getD_set_self {l : List Nat} {p a : Nat} (h : p < l.length) :
    (l.set p a).getD p 0 = a := by
  rw [List.getD_eq_getElem?_getD, List.getElem?_set_self h]
  rfl

theorem getD_set_ne {l : List Nat} {p q a : Nat} (h : p ≠ q) :
    (l.set p a).getD q 0 = l.getD q 0 := by
  rw [List.getD_eq_getElem?_getD, List.getElem?_set_ne h,
    ← List.getD_eq_getElem?_getD]

theorem getD_replicate_zero (n r : Nat) :
    (List.replicate n (0 : Nat)).getD r 0 = 0 := by
  rw [List.getD_eq_getElem?_getD]
  by_cases h : r < n
  · rw [List.getElem?_eq_getElem (by simpa using h)]
    simp [List.getElem_replicate]
  · rw [List.getElem?_eq_none (by simpa using h)]
    rfl

theorem getD_nodup_inj {sa : List Nat} (hnd : sa.Nodup) {k1 k2 : Nat}
    (h1 : k1 < sa.length) (h2 : k2 < sa.length)
    (heq : sa.getD k1 0 = sa.getD k2 0) : k1 = k2 := by
  rw [List.getD_eq_get sa 0 h1, List.getD_eq_get sa 0 h2] at heq
  have := List.nodup_iff_injective_get.mp hnd heq
  exact congrArg Fin.val this

theorem mkRank_peel (sa : List Nat) (m : Nat) :
    (List.range (m + 1)).foldl (fun r k => r.set (sa.getD k 0) k)
        (List.replicate sa.length 0) =
      ((List.range m).foldl (fun r k => r.set (sa.getD k 0) k)
        (List.replicate sa.length 0)).set (sa.getD m 0) m := by
  rw [List.range_succ, List.foldl_append]
  rfl

theorem mkRank_partial_length (sa : List Nat) : ∀ m : Nat,
    ((List.range m).foldl (fun r k => r.set (sa.getD k 0) k)
      (List.replicate sa.length 0)).length = sa.length
  | 0 => by simp
  | m + 1 => by
    rw [mkRank_peel, List.length_set]
    exact mkRank_partial_length sa m

theorem mkRank_partial_spec (sa : List Nat) (hnd : sa.Nodup)
    (hval : ∀ k, k < sa.length → sa.getD k 0 < sa.length) : ∀ m, m ≤ sa.length →
    ∀ k, k < m →
      ((List.range m).foldl (fun r k => r.set (sa.getD k 0) k)
        (List.replicate sa.length 0)).getD (sa.getD k 0) 0 = k
  | 0, _, k, hk => absurd hk (by omega)
  | m + 1, hm, k, hk => by
    rw [mkRank_peel]
    by_cases hkm : k = m
    · subst hkm
      have hpos : sa.getD k 0 < ((List.range k).foldl
          (fun r j => r.set (sa.getD j 0) j)
          (List.replicate sa.length 0)).length := by
        rw [mkRank_partial_length]
        exact hval k (by omega)
      exact getD_set_self hpos
    · have hne : sa.getD m 0 ≠ sa.getD k 0 := by
        intro hc
        exact hkm (getD_nodup_inj hnd (by omega) (by omega) hc.symm)
      rw [getD_set_ne hne]
      exact mkRank_partial_spec sa hnd hval m (by omega) k (by omega)

theorem mkRank_length (sa : List Nat) : (mkRank sa).length = sa.length :=
  mkRank_partial_length sa sa.length

theorem mkRank_spec (sa : List Nat) (hnd : sa.Nodup)
    (hval : ∀ k, k < sa.length → sa.getD k 0 < sa.length) :
    ∀ k, k < sa.length → (mkRank sa).getD (sa.getD k 0) 0 = k :=
  fun k hk => mkRank_partial_spec sa hnd hval sa.length (le_refl _) k hk

theorem computeLCP_eq (s sa : List Nat) :
    computeLCP s sa = (kasaiPartial s sa sa.length).2 := rfl

theorem kasaiPartial_succ (s sa : List Nat) (m : Nat) :
    kasaiPartial s sa (m + 1) =
      kasaiStep s sa (mkRank sa) (kasaiPartial s sa m) m := by
  rw [kasaiPartial, kasaiPartial, List.range_succ, List.foldl_append,
    List.foldl_cons, List.foldl_nil]

theorem sa_getD_mem {sa : List Nat} {k : Nat} (hk : k < sa.length) :
    sa.getD k 0 ∈ sa := by
  rw [List.getD_eq_get sa 0 hk]
  exact List.get_mem sa k hk

theorem sa_getD_lt {s sa : List Nat} (hperm : sa.Perm (List.range s.length))
    {k : Nat} (hk : k < sa.length) : sa.getD k 0 < s.length :=
  List.mem_range.mp (hperm.mem_iff.mp (sa_getD_mem hk))

theorem sa_surj {s sa : List Nat} (hperm : sa.Perm (List.range s.length))
    {p : Nat} (hp : p < s.length) : ∃ k, k < sa.length ∧ sa.getD k 0 = p := by
  have hmem : p ∈ sa := hperm.mem_iff.mpr (List.mem_range.mpr hp)
  obtain ⟨⟨k, hk⟩, hkp⟩ := List.mem_iff_get.mp hmem
  refine ⟨k, hk, ?_⟩
  rw [List.getD_eq_get sa 0 hk]
  exact hkp

theorem rank_getD {s sa : List Nat} (hperm : sa.Perm (List.range s.length))
    {p : Nat} (hp : p < s.length) :
    (mkRank sa).getD p 0 < sa.length ∧ sa.getD ((mkRank sa).getD p 0) 0 = p := by
  have hlen : sa.length = s.length := hperm.length_eq.trans (List.length_range _)
  have hnd : sa.Nodup := hperm.nodup_iff.mpr (List.nodup_range _)
  have hvs : ∀ k, k < sa.length → sa.getD k 0 < sa.length := fun k hk => by
    have := sa_getD_lt hperm hk
    omega
  obtain ⟨k, hk, hkp⟩ := sa_surj hperm hp
  have hspec := mkRank_spec sa hnd hvs k hk
  rw [hkp] at hspec
  rw [hspec]
  exact ⟨hk, hkp⟩

theorem suffix_sorted {s sa : List Nat} (hch : List.Chain' (suffixLex s) sa)
    {k1 k2 : Nat} (h12 : k1 < k2) (hk2 : k2 < sa.length) :
    List.Lex (· < ·) (s.drop (sa.getD k1 0)) (s.drop (sa.getD k2 0)) := by
  have hpw : sa.Pairwise (suffixLex s) := List.chain'_iff_pairwise.mp hch
  have hk1 : k1 < sa.length := by omega
  have := List.pairwise_iff_get.mp hpw ⟨k1, hk1⟩ ⟨k2, hk2⟩
    (Fin.mk_lt_mk.mpr h12)
  rw [List.getD_eq_get sa 0 hk1, List.getD_eq_get sa 0 hk2]
  exact this

theorem lcpLen_drop_succ {s : List Nat} {p q : Nat} (hp : p < s.length)
    (hq : q < s.length) (hpos : 0 < lcpLen (s.drop p) (s.drop q)) :
    s.getD p 0 = s.getD q 0 ∧
      lcpLen (s.drop p) (s.drop q) =
        lcpLen (s.drop (p + 1)) (s.drop (q + 1)) + 1 := by
  rw [drop_cons_getD s p hp, drop_cons_getD s q hq] at hpos ⊢
  by_cases hh : s.getD p 0 = s.getD q 0
  · refine ⟨hh, ?_⟩
    rw [hh, lcpLen_cons_eq]
  · rw [lcpLen, if_neg hh] at hpos
    omega

theorem kasaiPartial_inv (s sa : List Nat)
    (hperm : sa.Perm (List.range s.length))
    (hch : List.Chain' (suffixLex s) sa) : ∀ m : Nat, m ≤ sa.length →
    ((kasaiPartial s sa m).2.length = sa.length) ∧
      (∀ r, r < sa.length → (kasaiPartial s sa m).2.getD r 0 =
        if 0 < r ∧ sa.getD r 0 < m then
          lcpLen (s.drop (sa.getD (r - 1) 0)) (s.drop (sa.getD r 0))
        else 0) ∧
      (m < sa.length →
        (0 < (mkRank sa).getD m 0 →
          (kasaiPartial s sa m).1 ≤
            lcpLen (s.drop m) (s.drop (sa.getD ((mkRank sa).getD m 0 - 1) 0))) ∧
        ((mkRank sa).getD m 0 = 0 → (kasaiPartial s sa m).1 = 0))
  | 0, _ => by
    have h0 : kasaiPartial s sa 0 = (0, List.replicate sa.length 0) := by
      rw [kasaiPartial, List.range_zero, List.foldl_nil]
    have h1 : (kasaiPartial s sa 0).1 = 0 := by rw [h0]
    have h2 : (kasaiPartial s sa 0).2 = List.replicate sa.length 0 := by rw [h0]
    refine ⟨?_, ?_, ?_⟩
    · rw [h2]
      exact List.length_replicate _ _
    · intro r hr
      rw [h2, getD_replicate_zero]
      rw [if_neg (by rintro ⟨_, hc⟩; omega)]
    · intro _
      rw [h1]
      exact ⟨fun _ => Nat.zero_le _, fun _ => rfl⟩
  | m + 1, hm1 => by
    have hmn : m < sa.length := by omega
    obtain ⟨IH1, IH2, IH3⟩ := kasaiPartial_inv s sa hperm hch m (by omega)
    have hlen : sa.length = s.length := hperm.length_eq.trans (List.length_range _)
    have hnd : sa.Nodup := hperm.nodup_iff.mpr (List.nodup_range _)
    have hvs : ∀ k, k < sa.length → sa.getD k 0 < sa.length := fun k hk => by
      have := sa_getD_lt hperm hk
      omega
    have hstep : kasaiPartial s sa (m + 1) =
        kasaiStep s sa (mkRank sa) (kasaiPartial s sa m) m :=
      kasaiPartial_succ s sa m
    simp only [kasaiStep] at hstep
    by_cases hcase : 0 < (mkRank sa).getD m 0
    · -- rank[m] > 0: the loop body writes `lcp[rank[m]]` and updates `h`.
      rw [if_pos hcase] at hstep
      have hhle := (IH3 hmn).1 hcase
      obtain ⟨rm, hrm⟩ : ∃ x, (mkRank sa).getD m 0 = x := ⟨_, rfl⟩
      rw [hrm] at hstep hcase
      obtain ⟨j, hjx⟩ : ∃ x, sa.getD (rm - 1) 0 = x := ⟨_, rfl⟩
      rw [hrm, hjx] at hhle
      obtain ⟨h0, hh0⟩ : ∃ x, (kasaiPartial s sa m).1 = x := ⟨_, rfl⟩
      rw [hjx, hh0] at hstep
      rw [hh0] at hhle
      obtain ⟨e, heq⟩ : ∃ x, kasaiExtend s m j h0 = x := ⟨_, rfl⟩
      rw [heq] at hstep
      have hms : m < s.length := by omega
      have hrm_lt : rm < sa.length := by
        rw [← hrm]
        exact (rank_getD hperm hms).1
      have hsarm : sa.getD rm 0 = m := by
        rw [← hrm]
        exact (rank_getD hperm hms).2
      have hj_lt : j < s.length := by
        rw [← hjx]
        exact sa_getD_lt hperm (show rm - 1 < sa.length by omega)
      have he : e = lcpLen (s.drop m) (s.drop j) := by
        rw [← heq, kasaiExtend_spec]
        have hadd := lcpLen_add h0 (s.drop m) (s.drop j) hhle
        rw [List.drop_drop, List.drop_drop] at hadd
        omega
      refine ⟨?_, ?_, ?_⟩
      · rw [hstep]
        simp only [List.length_set]
        exact IH1
      · intro r hr
        rw [hstep]
        by_cases hreq : r = rm
        · subst hreq
          rw [getD_set_self (show r < (kasaiPartial s sa m).2.length by
            rw [IH1]; exact hrm_lt)]
          rw [if_pos ⟨hcase, by rw [hsarm]; omega⟩]
          rw [hjx, hsarm, he]
          exact lcpLen_comm _ _
        · rw [getD_set_ne (fun hc => hreq hc.symm)]
          rw [IH2 r hr]
          by_cases hcnd : 0 < r ∧ sa.getD r 0 < m
          · rw [if_pos hcnd, if_pos ⟨hcnd.1, by omega⟩]
          · have hneg : ¬(0 < r ∧ sa.getD r 0 < m + 1) := by
              rintro ⟨hr0, hrm1⟩
              apply hcnd
              refine ⟨hr0, ?_⟩
              by_contra hge
              have heqm : sa.getD r 0 = m := by omega
              have hspec := mkRank_spec sa hnd hvs r hr
              rw [heqm, hrm] at hspec
              exact hreq hspec.symm
            rw [if_neg hcnd, if_neg hneg]
      · intro hm2
        have hh' : (kasaiPartial s sa (m + 1)).1 = e - 1 := by
          rw [hstep]
          show (if 0 < e then e - 1 else e) = e - 1
          split_ifs with he0
          · rfl
          · omega
        rw [hh']
        by_cases hbig : 2 ≤ e
        · have hL2 : 2 ≤ lcpLen (s.drop m) (s.drop j) := by
            rw [← he]
            exact hbig
          have hm1s : m + 1 < s.length := by omega
          have hj1s : j + 1 < s.length := by
            have hle := lcpLen_le_left (s.drop j) (s.drop m)
            have h2c : 2 ≤ lcpLen (s.drop j) (s.drop m) := by
              rw [lcpLen_comm]
              exact hL2
            have hld : (s.drop j).length = s.length - j := by
              rw [List.length_drop]
            omega
          have hheads := lcpLen_drop_succ hms hj_lt
            (show 0 < lcpLen (s.drop m) (s.drop j) by omega)
          have hlexjm : List.Lex (· < ·) (s.drop j) (s.drop m) := by
            have := suffix_sorted hch (show rm - 1 < rm by omega) hrm_lt
            rw [hjx, hsarm] at this
            exact this
          have hjm : j ≠ m := by
            intro hc
            rw [hc] at hlexjm
            exact lexNat_asymm hlexjm hlexjm
          have hlextail : List.Lex (· < ·) (s.drop (j + 1)) (s.drop (m + 1)) :=
            lex_tail s j m hj_lt hms hheads.1.symm hlexjm
          have hkj_lt : (mkRank sa).getD (j + 1) 0 < sa.length :=
            (rank_getD hperm hj1s).1
          have hsakj : sa.getD ((mkRank sa).getD (j + 1) 0) 0 = j + 1 :=
            (rank_getD hperm hj1s).2
          have hrm1_lt : (mkRank sa).getD (m + 1) 0 < sa.length :=
            (rank_getD hperm hm1s).1
          have hsarm1 : sa.getD ((mkRank sa).getD (m + 1) 0) 0 = m + 1 :=
            (rank_getD hperm hm1s).2
          obtain ⟨k1, hk1⟩ : ∃ x, (mkRank sa).getD (j + 1) 0 = x := ⟨_, rfl⟩
          obtain ⟨k2, hk2⟩ : ∃ x, (mkRank sa).getD (m + 1) 0 = x := ⟨_, rfl⟩
          rw [hk1] at hkj_lt hsakj
          rw [hk2] at hrm1_lt hsarm1
          rw [hk2]
          have hkne : k1 ≠ k2 := by
            intro hc
            rw [hc, hsarm1] at hsakj
            exact hjm (by omega)
          have hklt : k1 < k2 := by
            by_contra hno
            have h21 : k2 < k1 := by omega
            have := suffix_sorted hch h21 hkj_lt
            rw [hsakj, hsarm1] at this
            exact lexNat_asymm hlextail this
          constructor
          · intro hpos1
            by_cases hkeq : k1 = k2 - 1
            · have hq : sa.getD (k2 - 1) 0 = j + 1 := by
                rw [← hkeq]
                exact hsakj
              rw [hq]
              have := hheads.2
              omega
            · have hlex1 : List.Lex (· < ·) (s.drop (j + 1))
                  (s.drop (sa.getD (k2 - 1) 0)) := by
                have := suffix_sorted hch (show k1 < k2 - 1 by omega)
                  (show k2 - 1 < sa.length by omega)
                rw [hsakj] at this
                exact this
              have hlex2 : List.Lex (· < ·) (s.drop (sa.getD (k2 - 1) 0))
                  (s.drop (m + 1)) := by
                have := suffix_sorted hch (show k2 - 1 < k2 by omega) hrm1_lt
                rw [hsarm1] at this
                exact this
              have hmono := lex_lcp_mono (s.drop (m + 1)) (s.drop (j + 1))
                (s.drop (sa.getD (k2 - 1) 0)) (Or.inl hlex1) (Or.inl hlex2)
              have hc1 : lcpLen (s.drop (j + 1)) (s.drop (m + 1)) =
                  lcpLen (s.drop (m + 1)) (s.drop (j + 1)) := lcpLen_comm _ _
              have hc2 : lcpLen (s.drop (sa.getD (k2 - 1) 0)) (s.drop (m + 1)) =
                  lcpLen (s.drop (m + 1)) (s.drop (sa.getD (k2 - 1) 0)) :=
                lcpLen_comm _ _
              have := hheads.2
              omega
          · intro hz
            exfalso
            omega
        · constructor
          · intro _
            omega
          · intro _
            omega
    · -- rank[m] = 0: the loop body leaves the state unchanged.
      rw [if_neg hcase] at hstep
      refine ⟨?_, ?_, ?_⟩
      · rw [hstep]
        exact IH1
      · intro r hr
        rw [hstep, IH2 r hr]
        by_cases hcnd : 0 < r ∧ sa.getD r 0 < m
        · rw [if_pos hcnd, if_pos ⟨hcnd.1, by omega⟩]
        · have hneg : ¬(0 < r ∧ sa.getD r 0 < m + 1) := by
            rintro ⟨hr0, hrm1⟩
            apply hcnd
            refine ⟨hr0, ?_⟩
            by_contra hge
            have heqm : sa.getD r 0 = m := by omega
            have hspec := mkRank_spec sa hnd hvs r hr
            rw [heqm] at hspec
            omega
          rw [if_neg hcnd, if_neg hneg]
      · intro _
        have hz : (kasaiPartial s sa m).1 = 0 := (IH3 hmn).2 (by omega)
        constructor
        · intro _
          rw [hstep, hz]
          exact Nat.zero_le _
        · intro _
          rw [hstep]
          exact hz

/-- C7: for every text with a correct suffix array (a permutation of
`[0, n)` whose consecutive entries index lexicographically increasing
suffixes), the LCP array computed by `SuffixArray::computeLCP`
(src/include/sa_is.hpp, lines 52-73, Kasai's algorithm) has length `n`,
satisfies `LCP[0] = 0` and, for every `i ≥ 1`, `LCP[i]` equals the exact
length of the longest common prefix of `suffix(SA[i-1])` and
`suffix(SA[i])`. -/
theorem C7_kasai_lcp (s sa : List Nat)
    (hperm : sa.Perm (List.range s.length))
    (hch : List.Chain' (suffixLex s) sa) :
    (computeLCP s sa).length = sa.length ∧
      (computeLCP s sa).getD 0 0 = 0 ∧
      ∀ r, 0 < r → r < sa.length →
        (computeLCP s sa).getD r 0 =
          lcpLen (s.drop (sa.getD (r - 1) 0)) (s.drop (sa.getD r 0)) := by
  obtain ⟨h1, h2, _⟩ := kasaiPartial_inv s sa hperm hch sa.length (le_refl _)
  rw [computeLCP_eq]
  refine ⟨h1, ?_, ?_⟩
  · by_cases h0 : 0 < sa.length
    · rw [h2 0 h0, if_neg (by rintro ⟨hc, _⟩; omega)]
    · exact List.getD_eq_default _ _ (by omega)
  · intro r hr0 hrn
    have hlen : sa.length = s.length := hperm.length_eq.trans (List.length_range _)
    have hlt := sa_getD_lt hperm hrn
    rw [h2 r hrn, if_pos ⟨hr0, by omega⟩]

/-- C7 witness: the text `[1,2,1]` with its suffix array `[2,0,1]`
(suffix order `[1] < [1,2,1] < [2,1]`), whose LCP array is `[0,1,0]`. -/
theorem C7_kasai_lcp_witness :
    (computeLCP [1, 2, 1] [2, 0, 1]).length = ([2, 0, 1] : List Nat).length ∧
      (computeLCP [1, 2, 1] [2, 0, 1]).getD 0 0 = 0 ∧
      ∀ r, 0 < r → r < ([2, 0, 1] : List Nat).length →
        (computeLCP [1, 2, 1] [2, 0, 1]).getD r 0 =
          lcpLen ([1, 2, 1].drop ([2, 0, 1].getD (r - 1) 0))
            ([1, 2, 1].drop ([2, 0, 1].getD r 0)) :=
  C7_kasai_lcp [1, 2, 1] [2, 0, 1] (by decide)
    (by simp only [List.chain'_cons, List.chain'_singleton, and_true]; decide)

end SAPhraseSearch

namespace SAPS

/-- C8: appending a string on the left of a group (`s & g`, `s | g`) appends
it at the end of the pattern list, identically to `g & s` / `g | s`. -/
theorem C8_mixed_operand_append (s : List Nat) (g : grouped_dataAND)
    (g2 : grouped_dataOR) :
    andSG s g = andGS g s ∧ (andSG s g).strs = g.strs ++ [s] ∧
      orSG s g2 = orGS g2 s ∧ (orSG s g2).strs = g2.strs ++ [s] :=
  ⟨rfl, rfl, rfl, rfl⟩

theorem combineAND_length : ∀ (a b : List Nat) (md : Int),
    (combineAND a b md).length ≤ min a.length b.length
  | [], b, md => by simp [combineAND]
  | x :: xs, [], md => by simp [combineAND]
  | x :: xs, y :: ys, md => by
    rw [combineAND]
    split_ifs with h1 h2
    · have := combineAND_length xs ys md
      simp only [List.length_cons]
      omega
    · have := combineAND_length xs (y :: ys) md
      simp only [List.length_cons] at *
      omega
    · have := combineAND_length (x :: xs) ys md
      simp only [List.length_cons] at *
      omega
termination_by a b _ => a.length + b.length

theorem foldlAND_length_le_acc (str sa : List Nat) (md : Int) :
    ∀ (ps : List (List Nat)) (acc : List Nat),
      (ps.foldl (fun acc q => combineAND acc (sa_match str sa q) md) acc).length ≤
        acc.length
  | [], acc => le_rfl
  | p :: ps, acc => by
    simp only [List.foldl_cons]
    refine le_trans (foldlAND_length_le_acc str sa md ps _) ?_
    have := combineAND_length acc (sa_match str sa p) md
    omega

theorem foldlAND_length_le_mem (str sa : List Nat) (md : Int) :
    ∀ (ps : List (List Nat)) (acc : List Nat) (q : List Nat), q ∈ ps →
      (ps.foldl (fun acc q => combineAND acc (sa_match str sa q) md) acc).length ≤
        (sa_match str sa q).length
  | p :: ps, acc, q, hq => by
    simp only [List.foldl_cons]
    rcases List.mem_cons.mp hq with rfl | hq
    · refine le_trans (foldlAND_length_le_acc str sa md ps _) ?_
      have := combineAND_length acc (sa_match str sa q) md
      omega
    · exact foldlAND_length_le_mem str sa md ps _ q hq

/-- C9: for a non-empty AND group, the merged output never has more
positions than any single constituent pattern's occurrence list. -/
theorem C9_and_length_bound (str sa : List Nat) (data : grouped_dataAND)
    (md : Int) (q : List Nat) (hq : q ∈ data.strs) :
    (grouped_matchAND str sa data md).length ≤ (sa_match str sa q).length := by
  obtain ⟨strs⟩ := data
  match strs, hq with
  | p :: ps, hq =>
    show (ps.foldl (fun acc q => combineAND acc (sa_match str sa q) md)
      (sa_match str sa p)).length ≤ (sa_match str sa q).length
    rcases List.mem_cons.mp hq with rfl | hq
    · exact foldlAND_length_le_acc str sa md ps _
    · exact foldlAND_length_le_mem str sa md ps _ q hq

/-- C9 witness: on the text "banana" (`[2,1,3,1,3,1]`, `a=1`, `b=2`, `n=3`)
with the AND group `["ana","na"]` and `md = 5`. -/
theorem C9_and_length_bound_witness :
    (grouped_matchAND [2,1,3,1,3,1] [5,3,1,0,4,2] ⟨[[1,3,1],[3,1]]⟩ 5).length ≤
      (sa_match [2,1,3,1,3,1] [5,3,1,0,4,2] [3,1]).length :=
  C9_and_length_bound [2,1,3,1,3,1] [5,3,1,0,4,2] ⟨[[1,3,1],[3,1]]⟩ 5 [3,1]
    (by decide)

theorem combineAND_gt (md : Int) (c : Nat) : ∀ (a b : List Nat),
    (∀ x ∈ a, c < x) → (∀ x ∈ b, c < x) → ∀ x ∈ combineAND a b md, c < x
  | [], b, _, _ => by simp [combineAND]
  | x :: xs, [], _, _ => by simp [combineAND]
  | x :: xs, y :: ys, ha, hb => by
    rw [combineAND]
    split_ifs with h1 h2
    · intro z hz
      rcases List.mem_cons.mp hz with rfl | hz
      · have hx := ha x (by simp)
        have hy := hb y (by simp)
        omega
      · exact combineAND_gt md c xs ys (fun u hu => ha u (by simp [hu]))
          (fun u hu => hb u (by simp [hu])) z hz
    · exact combineAND_gt md c xs (y :: ys) (fun u hu => ha u (by simp [hu])) hb
    · exact combineAND_gt md c (x :: xs) ys ha (fun u hu => hb u (by simp [hu]))
termination_by a b => a.length + b.length

theorem combineAND_pairwise (md : Int) (hmd : 0 ≤ md) : ∀ (a b : List Nat),
    a.Pairwise (· < ·) → b.Pairwise (· < ·) →
      (combineAND a b md).Pairwise (· < ·)
  | [], b, _, _ => by simp [combineAND]
  | x :: xs, [], _, _ => by simp [combineAND]
  | x :: xs, y :: ys, ha, hb => by
    rw [List.pairwise_cons] at ha hb
    rw [combineAND]
    split_ifs with h1 h2
    · rw [List.pairwise_cons]
      constructor
      · intro z hz
        have := combineAND_gt md (min x y) xs ys
          (fun u hu => lt_of_le_of_lt (min_le_left _ _) (ha.1 u hu))
          (fun u hu => lt_of_le_of_lt (min_le_right _ _) (hb.1 u hu)) z hz
        exact this
      · exact combineAND_pairwise md hmd xs ys ha.2 hb.2
    · exact combineAND_pairwise md hmd xs (y :: ys) ha.2
        (List.pairwise_cons.mpr hb)
    · exact combineAND_pairwise md hmd (x :: xs) ys
        (List.pairwise_cons.mpr ha) hb.2
termination_by a b => a.length + b.length

theorem combineOR_gt (md : Int) (c : Nat) : ∀ (a b : List Nat),
    (∀ x ∈ a, c < x) → (∀ x ∈ b, c < x) → ∀ x ∈ combineOR a b md, c < x
  | [], b, _, hb => by
    intro z hz
    rw [combineOR] at hz
    exact hb z hz
  | x :: xs, [], ha, _ => by
    intro z hz
    rw [combineOR] at hz
    exact ha z hz
  | x :: xs, y :: ys, ha, hb => by
    rw [combineOR]
    split_ifs with h1 h2
    · intro z hz
      rcases List.mem_cons.mp hz with rfl | hz
      · have hx := ha x (by simp)
        have hy := hb y (by simp)
        omega
      · exact combineOR_gt md c xs ys (fun u hu => ha u (by simp [hu]))
          (fun u hu => hb u (by simp [hu])) z hz
    · intro z hz
      rcases List.mem_cons.mp hz with rfl | hz
      · exact ha z (by simp)
      · exact combineOR_gt md c xs (y :: ys) (fun u hu => ha u (by simp [hu]))
          hb z hz
    · intro z hz
      rcases List.mem_cons.mp hz with rfl | hz
      · exact hb z (by simp)
      · exact combineOR_gt md c (x :: xs) ys ha
          (fun u hu => hb u (by simp [hu])) z hz
termination_by a b => a.length + b.length

theorem combineOR_pairwise (md : Int) (hmd : 0 ≤ md) : ∀ (a b : List Nat),
    a.Pairwise (· < ·) → b.Pairwise (· < ·) →
      (combineOR a b md).Pairwise (· < ·)
  | [], b, _, hb => by
    rw [combineOR]
    exact hb
  | x :: xs, [], ha, _ => by
    rw [combineOR]
    exact ha
  | x :: xs, y :: ys, ha, hb => by
    rw [List.pairwise_cons] at ha hb
    rw [combineOR]
    split_ifs with h1 h2
    · rw [List.pairwise_cons]
      refine ⟨?_, combineOR_pairwise md hmd xs ys ha.2 hb.2⟩
      exact combineOR_gt md (min x y) xs ys
        (fun u hu => lt_of_le_of_lt (min_le_left _ _) (ha.1 u hu))
        (fun u hu => lt_of_le_of_lt (min_le_right _ _) (hb.1 u hu))
    · rw [List.pairwise_cons]
      refine ⟨?_, combineOR_pairwise md hmd xs (y :: ys) ha.2
        (List.pairwise_cons.mpr hb)⟩
      refine combineOR_gt md x xs (y :: ys) ha.1 ?_
      intro u hu
      rcases List.mem_cons.mp hu with rfl | hu
      · omega
      · have := hb.1 u hu
        omega
    · rw [List.pairwise_cons]
      have hyx : y < x := by
        rcases Nat.lt_trichotomy x y with h | h | h
        · exact absurd h h2
        · exfalso
          subst h
          rw [sub_self, abs_zero] at h1
          exact h1 hmd
        · exact h
      refine ⟨?_, combineOR_pairwise md hmd (x :: xs) ys
        (List.pairwise_cons.mpr ha) hb.2⟩
      refine combineOR_gt md y (x :: xs) ys ?_ hb.1
      intro u hu
      rcases List.mem_cons.mp hu with rfl | hu
      · exact hyx
      · have := ha.1 u hu
        omega
termination_by a b => a.length + b.length

theorem combineOR_subset (md : Int) : ∀ (a b : List Nat),
    ∀ x ∈ combineOR a b md, x ∈ a ∨ x ∈ b
  | [], b => by
    intro x hx
    rw [combineOR] at hx
    exact Or.inr hx
  | x :: xs, [] => by
    intro z hz
    rw [combineOR] at hz
    exact Or.inl hz
  | x :: xs, y :: ys => by
    rw [combineOR]
    split_ifs with h1 h2
    · intro z hz
      rcases List.mem_cons.mp hz with rfl | hz
      · rcases min_choice x y with h | h <;> rw [h]
        · exact Or.inl (by simp)
        · exact Or.inr (by simp)
      · rcases combineOR_subset md xs ys z hz with h | h
        · exact Or.inl (by simp [h])
        · exact Or.inr (by simp [h])
    · intro z hz
      rcases List.mem_cons.mp hz with rfl | hz
      · exact Or.inl (by simp)
      · rcases combineOR_subset md xs (y :: ys) z hz with h | h
        · exact Or.inl (by simp [h])
        · exact Or.inr h
    · intro z hz
      rcases List.mem_cons.mp hz with rfl | hz
      · exact Or.inr (by simp)
      · rcases combineOR_subset md (x :: xs) ys z hz with h | h
        · exact Or.inl h
        · exact Or.inr (by simp [h])
termination_by a b => a.length + b.length

theorem combineOR_mem_zero : ∀ (a b : List Nat), ∀ x, x ∈ a ∨ x ∈ b →
    x ∈ combineOR a b 0
  | [], b, x, hx => by
    rcases hx with hx | hx
    · simp at hx
    · simpa [combineOR] using hx
  | y :: ys, [], x, hx => by
    rcases hx with hx | hx
    · simpa [combineOR] using hx
    · simp at hx
  | y :: ys, z :: zs, x, hx => by
    rw [combineOR]
    split_ifs with h1 h2
    · have hyz : y = z := by
        rw [abs_sub_le_iff] at h1
        omega
      subst hyz
      simp only [min_self]
      rcases hx with hx | hx <;> rcases List.mem_cons.mp hx with rfl | hx
      · exact List.mem_cons_self _ _
      · exact List.mem_cons_of_mem _ (combineOR_mem_zero ys zs x (Or.inl hx))
      · exact List.mem_cons_self _ _
      · exact List.mem_cons_of_mem _ (combineOR_mem_zero ys zs x (Or.inr hx))
    · rcases hx with hx | hx
      · rcases List.mem_cons.mp hx with rfl | hx
        · exact List.mem_cons_self _ _
        · exact List.mem_cons_of_mem _
            (combineOR_mem_zero ys (z :: zs) x (Or.inl hx))
      · exact List.mem_cons_of_mem _
          (combineOR_mem_zero ys (z :: zs) x (Or.inr hx))
    · rcases hx with hx | hx
      · exact List.mem_cons_of_mem _
          (combineOR_mem_zero (y :: ys) zs x (Or.inl hx))
      · rcases List.mem_cons.mp hx with rfl | hx
        · exact List.mem_cons_self _ _
        · exact List.mem_cons_of_mem _
            (combineOR_mem_zero (y :: ys) zs x (Or.inr hx))
termination_by a b _ _ => a.length + b.length

theorem combineOR_mem_right_big (md : Int) (x : Nat) : ∀ (a b : List Nat),
    (∀ u ∈ a, x < u) → x ∈ b → x ∈ combineOR a b md
  | [], b, _, hx => by simpa [combineOR] using hx
  | y :: ys, [], _, hx => by simp at hx
  | y :: ys, z :: zs, ha, hx => by
    rw [combineOR]
    split_ifs with h1 h2
    · rcases List.mem_cons.mp hx with rfl | hx
      · have hy : x < y := ha y (by simp)
        have : min y x = x := by omega
        rw [min_comm] at this ⊢
        rw [this]
        exact List.mem_cons_self _ _
      · exact List.mem_cons_of_mem _ (combineOR_mem_right_big md x ys zs
          (fun u hu => ha u (by simp [hu])) hx)
    · exact List.mem_cons_of_mem _ (combineOR_mem_right_big md x ys (z :: zs)
        (fun u hu => ha u (by simp [hu])) hx)
    · rcases List.mem_cons.mp hx with rfl | hx
      · exact List.mem_cons_self _ _
      · exact List.mem_cons_of_mem _
          (combineOR_mem_right_big md x (y :: ys) zs ha hx)
termination_by a b => a.length + b.length

theorem combineOR_mem_left_big (md : Int) (x : Nat) : ∀ (a b : List Nat),
    (∀ u ∈ b, x < u) → x ∈ a → x ∈ combineOR a b md
  | [], b, _, hx => by simp at hx
  | y :: ys, [], _, hx => by simpa [combineOR] using hx
  | y :: ys, z :: zs, hb, hx => by
    rw [combineOR]
    split_ifs with h1 h2
    · rcases List.mem_cons.mp hx with rfl | hx
      · have hz : x < z := hb z (by simp)
        have hmin : min x z = x := by omega
        rw [hmin]
        exact List.mem_cons_self _ _
      · exact List.mem_cons_of_mem _ (combineOR_mem_left_big md x ys zs
          (fun u hu => hb u (by simp [hu])) hx)
    · rcases List.mem_cons.mp hx with rfl | hx
      · exact List.mem_cons_self _ _
      · exact List.mem_cons_of_mem _
          (combineOR_mem_left_big md x ys (z :: zs) hb hx)
    · exact List.mem_cons_of_mem _ (combineOR_mem_left_big md x (y :: ys) zs
        (fun u hu => hb u (by simp [hu])) hx)
termination_by a b => a.length + b.length

theorem midOf_ge {l r : Int} (h0 : 0 ≤ l) (hlr : l ≤ r) : l ≤ (midOf l r : Int) := by
  simp only [midOf]
  omega

theorem midOf_le {l r : Int} (h0 : 0 ≤ l) (hlr : l ≤ r) : (midOf l r : Int) ≤ r := by
  simp only [midOf]
  omega

theorem binGo_range (cmp : Nat → Int) (n : Nat) (first : Bool) :
    ∀ (l r ans : Int), r < (n : Int) →
      (ans = -1 ∨ (0 ≤ ans ∧ ans < (n : Int))) →
      (binGo cmp first l r ans = -1 ∨
        (0 ≤ binGo cmp first l r ans ∧ binGo cmp first l r ans < (n : Int)))
  | l, r, ans, hr, ha => by
    rw [binGo]
    split_ifs with hg hc hf hp
    · have h1 := midOf_ge hg.1 hg.2
      have h2 := midOf_le hg.1 hg.2
      exact binGo_range cmp n first l _ _ (by omega)
        (by right; constructor <;> omega)
    · have h1 := midOf_ge hg.1 hg.2
      have h2 := midOf_le hg.1 hg.2
      exact binGo_range cmp n first _ r _ hr (by right; constructor <;> omega)
    · have h2 := midOf_le hg.1 hg.2
      exact binGo_range cmp n first l _ _ (by omega) ha
    · exact binGo_range cmp n first _ r _ hr ha
    · exact ha
termination_by l r _ => (r + 1 - l).toNat
decreasing_by
  all_goals simp only [midOf]
  all_goals omega

theorem ccmp_bounds : ∀ (x t : List Nat), -1 ≤ ccmp x t ∧ ccmp x t ≤ 1
  | _, [] => by
    rw [ccmp]
    omega
  | [], b :: tb => by
    rw [ccmp]
    split_ifs with hb
    · exact ccmp_bounds [] tb
    · omega
  | a :: xs, b :: tb => by
    rw [ccmp]
    split_ifs with h1 h2
    · omega
    · omega
    · exact ccmp_bounds xs tb
termination_by _ t => t.length

theorem ccmp_nil_le : ∀ (t x : List Nat), ccmp [] t ≤ ccmp x t
  | [], x => by
    rw [ccmp, ccmp]
  | b :: tb, [] => le_refl _
  | b :: tb, a :: xs => by
    rw [ccmp]
    conv_rhs => rw [ccmp]
    have hb1 := ccmp_bounds [] tb
    have hb2 := ccmp_bounds xs tb
    have hrec := ccmp_nil_le tb xs
    split_ifs <;> omega
termination_by t _ => t.length

theorem ccmp_mono {x y : List Nat} (hxy : List.Lex (· < ·) x y) :
    ∀ t, ccmp x t ≤ ccmp y t := by
  induction hxy with
  | nil =>
    intro t
    exact ccmp_nil_le t _
  | @cons a l1 l2 h ih =>
    intro t
    cases t with
    | nil =>
      rw [ccmp, ccmp]
    | cons b tb =>
      rw [ccmp]
      conv_rhs => rw [ccmp]
      have := ih tb
      split_ifs <;> omega
  | @rel a l1 b l2 hab =>
    intro t
    cases t with
    | nil =>
      rw [ccmp, ccmp]
    | cons c tc =>
      rw [ccmp]
      conv_rhs => rw [ccmp]
      have hb1 := ccmp_bounds l1 tc
      have hb2 := ccmp_bounds l2 tc
      split_ifs with h1 h2 h3 h4 <;> omega

theorem binGo_first_spec (cmp : Nat → Int) (n : Nat)
    (mono : ∀ i j : Nat, i ≤ j → j < n → cmp i ≤ cmp j) :
    ∀ (l r ans : Int), 0 ≤ l → r < (n : Int) →
      (ans = -1 ∨ ∃ a : Nat, ans = (a : Int)) →
      (∀ i : Nat, (i : Int) < l → i < n → cmp i < 0) →
      (ans = -1 → ∀ i : Nat, r < (i : Int) → i < n → 0 < cmp i) →
      (∀ a : Nat, ans = (a : Int) →
        a < n ∧ cmp a = 0 ∧ (∀ i : Nat, r < (i : Int) → i < n → cmp i = 0 → a ≤ i)) →
      ((binGo cmp true l r ans = -1 ∧ ∀ i : Nat, i < n → cmp i ≠ 0) ∨
        (∃ a : Nat, binGo cmp true l r ans = (a : Int) ∧ a < n ∧ cmp a = 0 ∧
          ∀ i : Nat, i < n → cmp i = 0 → a ≤ i))
  | l, r, ans, hl0, hrn, hsh, inv1, inv2, inv3 => by
    rw [binGo]
    simp only [if_true]
    split_ifs with hg hc hp
    · -- cmp mid = 0: record mid and search further left
      have hm1 := midOf_ge hg.1 hg.2
      have hm2 := midOf_le hg.1 hg.2
      refine binGo_first_spec cmp n mono l ((midOf l r : Int) - 1) (midOf l r : Int)
        hl0 (by omega) (Or.inr ⟨midOf l r, rfl⟩) inv1
        (fun h => absurd h (by omega)) ?_
      intro a ha
      have haeq : a = midOf l r := by omega
      subst haeq
      refine ⟨by omega, hc, ?_⟩
      intro i hi _ _
      omega
    · -- cmp mid > 0: discard the right half
      have hm1 := midOf_ge hg.1 hg.2
      have hm2 := midOf_le hg.1 hg.2
      refine binGo_first_spec cmp n mono l ((midOf l r : Int) - 1) ans
        hl0 (by omega) hsh inv1 ?_ ?_
      · intro _ i hi hin
        exact lt_of_lt_of_le hp (mono (midOf l r) i (by omega) hin)
      · intro a ha
        obtain ⟨h1, h2, h3⟩ := inv3 a ha
        refine ⟨h1, h2, ?_⟩
        intro i hi hin hz
        have hge : cmp (midOf l r) ≤ cmp i := mono (midOf l r) i (by omega) hin
        omega
    · -- cmp mid < 0: discard the left half
      have hm1 := midOf_ge hg.1 hg.2
      have hm2 := midOf_le hg.1 hg.2
      have hneg : cmp (midOf l r) < 0 := by omega
      refine binGo_first_spec cmp n mono ((midOf l r : Int) + 1) r ans
        (by omega) hrn hsh ?_ inv2 inv3
      intro i hi hin
      exact lt_of_le_of_lt (mono i (midOf l r) (by omega) (by omega)) hneg
    · -- loop exit: l > r
      have hlr : r < l := by omega
      rcases hsh with rfl | ⟨a, rfl⟩
      · left
        refine ⟨rfl, ?_⟩
        intro i hin
        by_cases hil : (i : Int) < l
        · have := inv1 i hil hin
          omega
        · have := inv2 rfl i (by omega) hin
          omega
      · right
        obtain ⟨h1, h2, h3⟩ := inv3 a rfl
        refine ⟨a, rfl, h1, h2, ?_⟩
        intro i hin hz
        by_cases hil : (i : Int) < l
        · have := inv1 i hil hin
          omega
        · exact h3 i (by omega) hin hz
termination_by l r _ => (r + 1 - l).toNat
decreasing_by
  all_goals simp only [midOf]
  all_goals omega

theorem binGo_last_spec (cmp : Nat → Int) (n : Nat)
    (mono : ∀ i j : Nat, i ≤ j → j < n → cmp i ≤ cmp j) :
    ∀ (l r ans : Int), 0 ≤ l → r < (n : Int) →
      (ans = -1 ∨ ∃ a : Nat, ans = (a : Int)) →
      (∀ i : Nat, r < (i : Int) → i < n → 0 < cmp i) →
      (ans = -1 → ∀ i : Nat, (i : Int) < l → i < n → cmp i < 0) →
      (∀ a : Nat, ans = (a : Int) →
        a < n ∧ cmp a = 0 ∧ (∀ i : Nat, (i : Int) < l → i < n → cmp i = 0 → i ≤ a)) →
      ((binGo cmp false l r ans = -1 ∧ ∀ i : Nat, i < n → cmp i ≠ 0) ∨
        (∃ a : Nat, binGo cmp false l r ans = (a : Int) ∧ a < n ∧ cmp a = 0 ∧
          ∀ i : Nat, i < n → cmp i = 0 → i ≤ a))
  | l, r, ans, hl0, hrn, hsh, inv1, inv2, inv3 => by
    rw [binGo]
    simp only [Bool.false_eq_true, if_false]
    split_ifs with hg hc hp
    · -- cmp mid = 0: record mid and search further right
      have hm1 := midOf_ge hg.1 hg.2
      have hm2 := midOf_le hg.1 hg.2
      refine binGo_last_spec cmp n mono ((midOf l r : Int) + 1) r (midOf l r : Int)
        (by omega) hrn (Or.inr ⟨midOf l r, rfl⟩) inv1
        (fun h => absurd h (by omega)) ?_
      intro a ha
      have haeq : a = midOf l r := by omega
      subst haeq
      refine ⟨by omega, hc, ?_⟩
      intro i hi _ _
      omega
    · -- cmp mid > 0: discard the right half
      have hm1 := midOf_ge hg.1 hg.2
      have hm2 := midOf_le hg.1 hg.2
      refine binGo_last_spec cmp n mono l ((midOf l r : Int) - 1) ans
        hl0 (by omega) hsh ?_ inv2 inv3
      intro i hi hin
      exact lt_of_lt_of_le hp (mono (midOf l r) i (by omega) hin)
    · -- cmp mid < 0: discard the left half
      have hm1 := midOf_ge hg.1 hg.2
      have hm2 := midOf_le hg.1 hg.2
      have hneg : cmp (midOf l r) < 0 := by omega
      refine binGo_last_spec cmp n mono ((midOf l r : Int) + 1) r ans
        (by omega) hrn hsh inv1 ?_ ?_
      · intro _ i hi hin
        exact lt_of_le_of_lt (mono i (midOf l r) (by omega) (by omega)) hneg
      · intro a ha
        obtain ⟨h1, h2, h3⟩ := inv3 a ha
        refine ⟨h1, h2, ?_⟩
        intro i hi hin hz
        by_cases hil : (i : Int) < l
        · exact h3 i hil hin hz
        · have : cmp i ≤ cmp (midOf l r) := mono i (midOf l r) (by omega) (by omega)
          omega
    · -- loop exit: l > r
      have hlr : r < l := by omega
      rcases hsh with rfl | ⟨a, rfl⟩
      · left
        refine ⟨rfl, ?_⟩
        intro i hin
        by_cases hil : (i : Int) < l
        · have := inv2 rfl i hil hin
          omega
        · have := inv1 i (by omega) hin
          omega
      · right
        obtain ⟨h1, h2, h3⟩ := inv3 a rfl
        refine ⟨a, rfl, h1, h2, ?_⟩
        intro i hin hz
        by_cases hil : (i : Int) < l
        · exact h3 i hil hin hz
        · have := inv1 i (by omega) hin
          omega
termination_by l r _ => (r + 1 - l).toNat
decreasing_by
  all_goals simp only [midOf]
  all_goals omega

theorem pairwise_lt_of_sorted_nodup : ∀ {l : List Nat},
    l.Pairwise (· ≤ ·) → l.Pairwise (· ≠ ·) → l.Pairwise (· < ·)
  | [], _, _ => List.Pairwise.nil
  | _ :: _, hs, hn => by
    rw [List.pairwise_cons] at *
    exact ⟨fun b hb => lt_of_le_of_ne (hs.1 b hb) (hn.1 b hb),
      pairwise_lt_of_sorted_nodup hs.2 hn.2⟩

theorem saCmp_mono (s sa t : List Nat) (hlen : sa.length = s.length)
    (hch : List.Chain' (SAPhraseSearch.suffixLex s) sa) :
    ∀ i j : Nat, i ≤ j → j < s.length → saCmp s sa t i ≤ saCmp s sa t j := by
  intro i j hij hjn
  rcases Nat.eq_or_lt_of_le hij with rfl | hlt
  · exact le_refl _
  · have hp : sa.Pairwise (SAPhraseSearch.suffixLex s) :=
      List.chain'_iff_pairwise.mp hch
    have hi : i < sa.length := by omega
    have hj : j < sa.length := by omega
    have hrel := List.pairwise_iff_get.mp hp ⟨i, hi⟩ ⟨j, hj⟩ hlt
    show ccmp (s.drop (sa.getD i 0)) t ≤ ccmp (s.drop (sa.getD j 0)) t
    rw [List.getD_eq_get sa 0 hi, List.getD_eq_get sa 0 hj]
    exact ccmp_mono hrel t

/-- Full characterisation of `sa_match` on the main binary-search path
(`|P| < n`), given the suffix-array data-model invariants: the output is
strictly increasing and its members are exactly the positions whose suffix
compares equal to the pattern over the pattern's length (in the
NUL-padded sense of `ccmp`). -/
theorem sa_match_main (s sa t : List Nat)
    (hperm : sa.Perm (List.range s.length))
    (hch : List.Chain' (SAPhraseSearch.suffixLex s) sa)
    (hm : t.length < s.length) :
    (sa_match s sa t).Pairwise (· < ·) ∧
      (∀ p : Nat, p ∈ sa_match s sa t ↔ p < s.length ∧ ccmp (s.drop p) t = 0) := by
  have hlen : sa.length = s.length := by simpa using hperm.length_eq
  have hn1 : 1 ≤ s.length := by omega
  have mono := saCmp_mono s sa t hlen hch
  have hsanodup : sa.Nodup := hperm.nodup_iff.mpr (List.nodup_range _)
  have hidx : ∀ p : Nat, p < s.length → ccmp (s.drop p) t = 0 →
      ∃ i : Nat, i < s.length ∧ saCmp s sa t i = 0 ∧ sa.getD i 0 = p := by
    intro p hp hz
    have hmem : p ∈ sa := hperm.mem_iff.mpr (List.mem_range.mpr hp)
    obtain ⟨⟨i, hi⟩, hget⟩ := List.mem_iff_get.mp hmem
    refine ⟨i, by omega, ?_, ?_⟩
    · show ccmp (s.drop (sa.getD i 0)) t = 0
      rw [List.getD_eq_get sa 0 hi, hget]
      exact hz
    · rw [List.getD_eq_get sa 0 hi, hget]
  have hval : ∀ i : Nat, i < s.length → saCmp s sa t i = 0 →
      (sa.getD i 0 < s.length ∧ ccmp (s.drop (sa.getD i 0)) t = 0) := by
    intro i hi hz
    have hi' : i < sa.length := by omega
    constructor
    · have hmem : sa.get ⟨i, hi'⟩ ∈ sa := List.get_mem sa _ hi'
      have := hperm.mem_iff.mp hmem
      rw [List.getD_eq_get sa 0 hi']
      exact List.mem_range.mp this
    · exact hz
  have hF := binGo_first_spec (saCmp s sa t) s.length mono 0 ((s.length : Int) - 1)
      (-1) (le_refl 0) (by omega) (Or.inl rfl)
      (by intro i hi _; exfalso; omega)
      (by intro _ i hi hin; exfalso; omega)
      (by intro a ha; exfalso; omega)
  have hL := binGo_last_spec (saCmp s sa t) s.length mono 0 ((s.length : Int) - 1)
      (-1) (le_refl 0) (by omega) (Or.inl rfl)
      (by intro i hi hin; exfalso; omega)
      (by intro _ i hi _; exfalso; omega)
      (by intro a ha; exfalso; omega)
  have hbr1 : ¬ s.length < t.length := by omega
  have hbr2 : ¬ s.length = t.length := by omega
  rw [sa_match, if_neg hbr1, if_neg hbr2]
  simp only [saAnsl, saAnsr]
  rcases hF with ⟨hFm1, hnz⟩ | ⟨a, hFa, han, haz, hleast⟩
  · rw [hFm1]
    rw [if_pos rfl]
    refine ⟨List.Pairwise.nil, ?_⟩
    intro p
    simp only [List.not_mem_nil, false_iff]
    intro ⟨hp, hz⟩
    obtain ⟨i, hin, hcz, _⟩ := hidx p hp hz
    exact hnz i hin hcz
  · rcases hL with ⟨_, hnz⟩ | ⟨b, hLb, hbn, hbz, hgreat⟩
    · exact absurd haz (hnz a han)
    · rw [hFa, hLb]
      have hm1 : ¬ ((a : Int) = -1) := by omega
      rw [if_neg hm1]
      have hab : a ≤ b := hleast b hbn hbz
      have htn : ((b : Int) - (a : Int) + 1).toNat = b - a + 1 := by omega
      have hta : ((a : Int)).toNat = a := Int.toNat_natCast a
      rw [htn, hta]
      have hzero : ∀ i : Nat, a ≤ i → i ≤ b → saCmp s sa t i = 0 := by
        intro i h1 h2
        have hu := mono a i h1 (by omega)
        have hv := mono i b h2 (by omega)
        omega
      have hMnodup : ((List.range (b - a + 1)).map
          (fun k => sa.getD (a + k) 0)).Pairwise (· ≠ ·) := by
        rw [List.pairwise_map]
        have h0 := List.Pairwise.and_mem.mp (List.pairwise_lt_range (b - a + 1))
        refine h0.imp ?_
        intro k1 k2 hk
        obtain ⟨hk1m, hk2m, hklt⟩ := hk
        rw [List.mem_range] at hk1m hk2m
        intro heq
        have hb1 : a + k1 < sa.length := by omega
        have hb2 : a + k2 < sa.length := by omega
        rw [List.getD_eq_get sa 0 hb1, List.getD_eq_get sa 0 hb2] at heq
        have hinj := List.nodup_iff_injective_get.mp hsanodup heq
        have : a + k1 = a + k2 := congrArg Fin.val hinj
        omega
      constructor
      · have hsorted : (List.insertionSort (· ≤ ·) ((List.range (b - a + 1)).map
            (fun k => sa.getD (a + k) 0))).Pairwise (· ≤ ·) :=
          List.sorted_insertionSort _ _
        have hnd : (List.insertionSort (· ≤ ·) ((List.range (b - a + 1)).map
            (fun k => sa.getD (a + k) 0))).Nodup :=
          ((List.perm_insertionSort (· ≤ ·) _).nodup_iff).mpr hMnodup
        exact pairwise_lt_of_sorted_nodup hsorted hnd
      · intro p
        rw [(List.perm_insertionSort (· ≤ ·) _).mem_iff]
        constructor
        · intro hp
          obtain ⟨k, hk, hpk⟩ := List.mem_map.mp hp
          rw [List.mem_range] at hk
          have hib : a + k ≤ b := by omega
          have hiz := hzero (a + k) (by omega) hib
          have hres := hval (a + k) (by omega) hiz
          rw [hpk] at hres
          exact hres
        · intro hpz
          obtain ⟨hp, hz⟩ := hpz
          obtain ⟨i, hin, hcz, hgp⟩ := hidx p hp hz
          have hai : a ≤ i := hleast i hin hcz
          have hib : i ≤ b := hgreat i hin hcz
          refine List.mem_map.mpr ⟨i - a, ?_, ?_⟩
          · rw [List.mem_range]
            omega
          · have hia : a + (i - a) = i := by omega
            rw [hia, hgp]

theorem ccmp_eq_zero_iff : ∀ (t x : List Nat), (∀ c ∈ t, 0 < c) →
    (ccmp x t = 0 ↔ t.length ≤ x.length ∧ x.take t.length = t)
  | [], x, _ => by
    rw [ccmp]
    simp
  | b :: tb, [], h0 => by
    rw [ccmp]
    have hb : 0 < b := h0 b (by simp)
    rw [if_neg (by omega)]
    constructor
    · intro h
      exfalso
      omega
    · intro h
      simp at h
  | b :: tb, a :: xs, h0 => by
    rw [ccmp]
    split_ifs with h1 h2
    · constructor
      · intro h
        exact h.elim
      · intro h
        obtain ⟨hl, ht⟩ := h
        simp only [List.length_cons, List.take_succ_cons, List.cons.injEq] at ht
        obtain ⟨hab, _⟩ := ht
        omega
    · constructor
      · intro h
        exfalso
        omega
      · intro h
        obtain ⟨hl, ht⟩ := h
        simp only [List.length_cons, List.take_succ_cons, List.cons.injEq] at ht
        obtain ⟨hab, _⟩ := ht
        omega
    · have hab : a = b := by omega
      subst hab
      rw [ccmp_eq_zero_iff tb xs (fun c hc => h0 c (by simp [hc]))]
      simp only [List.length_cons, List.take_succ_cons, List.cons.injEq,
        Nat.succ_le_succ_iff, true_and]
termination_by t _ _ => t.length

/-- Strict sortedness of `sa_match` output needs only that the suffix-array
vector is a duplicate-free list of in-range positions (it holds for any
pattern, even the empty one): the slice is a duplicate-free family of
entries of `sa`, and the final sort orders it. -/
theorem sa_match_pairwise (s sa t : List Nat)
    (hperm : sa.Perm (List.range s.length)) :
    (sa_match s sa t).Pairwise (· < ·) := by
  have hlen : sa.length = s.length := by simpa using hperm.length_eq
  have hsanodup : sa.Nodup := hperm.nodup_iff.mpr (List.nodup_range _)
  rw [sa_match]
  split_ifs with h1 h2 h3 h4
  · exact List.Pairwise.nil
  · simp
  · exact List.Pairwise.nil
  · exact List.Pairwise.nil
  · have hn1 : 1 ≤ s.length := by omega
    have hF : saAnsl s sa t = -1 ∨
        (0 ≤ saAnsl s sa t ∧ saAnsl s sa t < (s.length : Int)) :=
      binGo_range (saCmp s sa t) s.length true 0 ((s.length : Int) - 1) (-1)
        (by omega) (Or.inl rfl)
    have hL : saAnsr s sa t = -1 ∨
        (0 ≤ saAnsr s sa t ∧ saAnsr s sa t < (s.length : Int)) :=
      binGo_range (saCmp s sa t) s.length false 0 ((s.length : Int) - 1) (-1)
        (by omega) (Or.inl rfl)
    rcases hF with hF1 | hF2
    · exact absurd hF1 h4
    · have hsorted := List.sorted_insertionSort (· ≤ ·)
        ((List.range (saAnsr s sa t - saAnsl s sa t + 1).toNat).map
          (fun k => sa.getD ((saAnsl s sa t).toNat + k) 0))
      have hnodup : ((List.range (saAnsr s sa t - saAnsl s sa t + 1).toNat).map
          (fun k => sa.getD ((saAnsl s sa t).toNat + k) 0)).Pairwise (· ≠ ·) := by
        rw [List.pairwise_map]
        have h0 := List.Pairwise.and_mem.mp
          (List.pairwise_lt_range (saAnsr s sa t - saAnsl s sa t + 1).toNat)
        refine h0.imp ?_
        intro k1 k2 hk
        obtain ⟨hk1m, hk2m, hklt⟩ := hk
        rw [List.mem_range] at hk1m hk2m
        intro heq
        have hLn : saAnsr s sa t < (s.length : Int) := by
          rcases hL with hL1 | hL2
          · omega
          · exact hL2.2
        have hb1 : (saAnsl s sa t).toNat + k1 < sa.length := by omega
        have hb2 : (saAnsl s sa t).toNat + k2 < sa.length := by omega
        rw [List.getD_eq_get sa 0 hb1, List.getD_eq_get sa 0 hb2] at heq
        have hinj := List.nodup_iff_injective_get.mp hsanodup heq
        have : (saAnsl s sa t).toNat + k1 = (saAnsl s sa t).toNat + k2 :=
          congrArg Fin.val hinj
        omega
      exact pairwise_lt_of_sorted_nodup hsorted
        (((List.perm_insertionSort (· ≤ ·) _).nodup_iff).mpr hnodup)

theorem foldlAND_pairwise (str sa : List Nat) (md : Int) (hmd : 0 ≤ md)
    (hperm : sa.Perm (List.range str.length)) :
    ∀ (ps : List (List Nat)) (acc : List Nat), acc.Pairwise (· < ·) →
      (ps.foldl (fun acc q => combineAND acc (sa_match str sa q) md)
        acc).Pairwise (· < ·)
  | [], _, h => h
  | p :: ps, acc, h =>
    foldlAND_pairwise str sa md hmd hperm ps _
      (combineAND_pairwise md hmd _ _ h (sa_match_pairwise str sa p hperm))

theorem foldlOR_pairwise (str sa : List Nat) (md : Int) (hmd : 0 ≤ md)
    (hperm : sa.Perm (List.range str.length)) :
    ∀ (ps : List (List Nat)) (acc : List Nat), acc.Pairwise (· < ·) →
      (ps.foldl (fun acc q => combineOR acc (sa_match str sa q) md)
        acc).Pairwise (· < ·)
  | [], _, h => h
  | p :: ps, acc, h =>
    foldlOR_pairwise str sa md hmd hperm ps _
      (combineOR_pairwise md hmd _ _ h (sa_match_pairwise str sa p hperm))

theorem grouped_matchAND_pairwise (str sa : List Nat) (dA : grouped_dataAND)
    (md : Int) (hmd : 0 ≤ md) (hperm : sa.Perm (List.range str.length)) :
    (grouped_matchAND str sa dA md).Pairwise (· < ·) := by
  obtain ⟨strs⟩ := dA
  cases strs with
  | nil => exact List.pairwise_lt_range _
  | cons p ps =>
    exact foldlAND_pairwise str sa md hmd hperm ps _
      (sa_match_pairwise str sa p hperm)

theorem grouped_matchOR_pairwise (str sa : List Nat) (dO : grouped_dataOR)
    (md : Int) (hmd : 0 ≤ md) (hperm : sa.Perm (List.range str.length)) :
    (grouped_matchOR str sa dO md).Pairwise (· < ·) := by
  obtain ⟨strs⟩ := dO
  cases strs with
  | nil => exact List.pairwise_lt_range _
  | cons p ps =>
    exact foldlOR_pairwise str sa md hmd hperm ps _
      (sa_match_pairwise str sa p hperm)

theorem combineOR_mem_both (md : Int) (x : Nat) : ∀ (a b : List Nat),
    a.Pairwise (· < ·) → b.Pairwise (· < ·) → x ∈ a → x ∈ b →
      x ∈ combineOR a b md
  | [], _, _, _, hx, _ => by simp at hx
  | _ :: _, [], _, _, _, hx => by simp at hx
  | y :: ys, z :: zs, ha, hb, hxa, hxb => by
    rw [List.pairwise_cons] at ha hb
    rw [combineOR]
    split_ifs with h1 h2
    · rcases List.mem_cons.mp hxa with rfl | hxa2
      · rcases List.mem_cons.mp hxb with rfl | hxb2
        · simp only [min_self]
          exact List.mem_cons_self _ _
        · -- x = y, x ∈ zs, so z < x; the pair emits min y z = z, and the
          -- recursion sees only elements of ys greater than x
          refine List.mem_cons_of_mem _ ?_
          exact combineOR_mem_right_big md x ys zs ha.1 hxb2
      · rcases List.mem_cons.mp hxb with rfl | hxb2
        · refine List.mem_cons_of_mem _ ?_
          exact combineOR_mem_left_big md x ys zs hb.1 hxa2
        · refine List.mem_cons_of_mem _ ?_
          exact combineOR_mem_both md x ys zs ha.2 hb.2 hxa2 hxb2
    · rcases List.mem_cons.mp hxa with rfl | hxa2
      · exact List.mem_cons_self _ _
      · refine List.mem_cons_of_mem _ ?_
        exact combineOR_mem_both md x ys (z :: zs) ha.2
          (List.pairwise_cons.mpr hb) hxa2 hxb
    · rcases List.mem_cons.mp hxb with rfl | hxb2
      · exact List.mem_cons_self _ _
      · refine List.mem_cons_of_mem _ ?_
        exact combineOR_mem_both md x (y :: ys) zs
          (List.pairwise_cons.mpr ha) hb.2 hxa hxb2
termination_by a b => a.length + b.length


/-- C1 (amended): for every text with a data-model-conforming suffix array
(permutation of `[0, n)`, suffixes strictly increasing) and every non-empty
pattern whose code units are all non-zero, `sa_match` returns a strictly
increasing list containing exactly the positions `p` with
`p + |P| ≤ n` and `T[p .. p+|P|) = P`.  (The restriction to NUL-free
patterns is forced by the counterexample below: the C-string comparison
reads the NUL terminator, so a pattern ending in NUL can match past the end
of the text.) -/
theorem C1_sa_match_occurrences (s sa t : List Nat)
    (hperm : sa.Perm (List.range s.length))
    (hch : List.Chain' (SAPhraseSearch.suffixLex s) sa)
    (hne : t ≠ []) (h0 : ∀ c ∈ t, 0 < c) :
    (sa_match s sa t).Pairwise (· < ·) ∧
      ∀ p : Nat, p ∈ sa_match s sa t ↔
        (p + t.length ≤ s.length ∧ (s.drop p).take t.length = t) := by
  have hne1 : 1 ≤ t.length := List.length_pos.mpr hne
  rcases Nat.lt_trichotomy s.length t.length with hlt | heq | hgt
  · refine ⟨sa_match_pairwise s sa t hperm, ?_⟩
    intro p
    rw [sa_match, if_pos hlt]
    simp only [List.not_mem_nil, false_iff]
    rintro ⟨hp, -⟩
    omega
  · refine ⟨sa_match_pairwise s sa t hperm, ?_⟩
    intro p
    rw [sa_match, if_neg (by omega), if_pos heq]
    by_cases hst : s = t
    · rw [if_pos hst]
      subst hst
      simp only [List.mem_singleton]
      constructor
      · rintro rfl
        refine ⟨by omega, ?_⟩
        rw [List.drop_zero, ← heq, List.take_length]
      · rintro ⟨hp, -⟩
        omega
    · rw [if_neg hst]
      simp only [List.not_mem_nil, false_iff]
      rintro ⟨hp, ht2⟩
      have hp0 : p = 0 := by omega
      subst hp0
      rw [List.drop_zero, ← heq, List.take_length] at ht2
      exact hst ht2
  · obtain ⟨hpw, hmem⟩ := sa_match_main s sa t hperm hch hgt
    refine ⟨hpw, ?_⟩
    intro p
    rw [hmem p, ccmp_eq_zero_iff t (s.drop p) h0]
    have hdl : (s.drop p).length = s.length - p := List.length_drop p s
    constructor
    · rintro ⟨hp, hlen2, htake⟩
      exact ⟨by omega, htake⟩
    · rintro ⟨hple, htake⟩
      have hp : p < s.length := by omega
      exact ⟨hp, by omega, htake⟩

/-- C1 witness: the "banana" scenario of the spec — text `[2,1,3,1,3,1]`
(`b=2`, `a=1`, `n=3`), suffix array `[5,3,1,0,4,2]`, pattern "ana". -/
theorem C1_sa_match_occurrences_witness :
    (sa_match [2,1,3,1,3,1] [5,3,1,0,4,2] [1,3,1]).Pairwise (· < ·) ∧
      ∀ p : Nat, p ∈ sa_match [2,1,3,1,3,1] [5,3,1,0,4,2] [1,3,1] ↔
        (p + ([1,3,1] : List Nat).length ≤ ([2,1,3,1,3,1] : List Nat).length ∧
          (([2,1,3,1,3,1] : List Nat).drop p).take ([1,3,1] : List Nat).length
            = [1,3,1]) :=
  C1_sa_match_occurrences [2,1,3,1,3,1] [5,3,1,0,4,2] [1,3,1] (by decide)
    (by simp only [List.chain'_cons, List.chain'_singleton, and_true]; decide)
    (by decide) (by decide)

/-- C1 counterexample: on the text `[1,2,3]` with its (valid, sorted) suffix
array `[0,1,2]`, the pattern `[3,0]` (which ends in the NUL code unit) is
reported at position `2`, outside the claimed range `[0, n-|P|] = [0,1]`:
the C-string comparison matches the NUL terminator after the suffix `[3]`. -/
theorem C1_counterexample :
    ([0,1,2] : List Nat).Perm (List.range 3) ∧
      List.Chain' (SAPhraseSearch.suffixLex [1,2,3]) [0,1,2] ∧
      sa_match [1,2,3] [0,1,2] [3,0] = [2] ∧
      ¬ (2 + ([3,0] : List Nat).length ≤ ([1,2,3] : List Nat).length) := by
  refine ⟨by decide, ?_, ?_, by decide⟩
  · simp only [List.chain'_cons, List.chain'_singleton, and_true]
    decide
  · simp [sa_match, saAnsl, saAnsr, saCmp, binGo, midOf, ccmp]

/-- C2 (amended): `sa_match` with an empty pattern does not return the empty
list; on a non-empty text it returns every position `[0, n)`, and on the
empty text it returns `[0]`.  Only the combination of an empty text with a
non-empty pattern yields the empty list. -/
theorem C2_empty_pattern_behavior (s sa t : List Nat)
    (hperm : sa.Perm (List.range s.length))
    (hch : List.Chain' (SAPhraseSearch.suffixLex s) sa)
    (hs : s ≠ []) (ht : t ≠ []) :
    sa_match s sa [] = List.range s.length ∧
      sa_match ([] : List Nat) sa [] = [0] ∧
      sa_match ([] : List Nat) sa t = [] := by
  refine ⟨?_, rfl, ?_⟩
  · have hn1 : 1 ≤ s.length := List.length_pos.mpr hs
    obtain ⟨hpw, hmem⟩ := sa_match_main s sa [] hperm hch hn1
    have hmem2 : ∀ p, p ∈ sa_match s sa [] ↔ p ∈ List.range s.length := by
      intro p
      rw [hmem p, List.mem_range]
      constructor
      · exact fun h => h.1
      · intro h
        refine ⟨h, ?_⟩
        rw [ccmp]
    have hnd1 : (sa_match s sa []).Nodup := hpw.imp (fun h => Nat.ne_of_lt h)
    have hperm2 : (sa_match s sa []).Perm (List.range s.length) :=
      (List.perm_ext_iff_of_nodup hnd1 (List.nodup_range _)).mpr hmem2
    have hs1 : (sa_match s sa []).Sorted (· ≤ ·) :=
      hpw.imp (fun h => Nat.le_of_lt h)
    have hs2 : (List.range s.length).Sorted (· ≤ ·) :=
      (List.pairwise_lt_range _).imp (fun h => Nat.le_of_lt h)
    exact List.eq_of_perm_of_sorted hperm2 hs1 hs2
  · have hlt : ([] : List Nat).length < t.length := by
      simpa using List.length_pos.mpr ht
    rw [sa_match, if_pos hlt]

/-- C2 witness: text `[1,2]` with suffix array `[0,1]` and pattern `[7]`. -/
theorem C2_empty_pattern_behavior_witness :
    sa_match [1,2] [0,1] [] = List.range 2 ∧
      sa_match ([] : List Nat) [0,1] [] = [0] ∧
      sa_match ([] : List Nat) [0,1] [7] = [] :=
  C2_empty_pattern_behavior [1,2] [0,1] [7] (by decide)
    (by simp only [List.chain'_cons, List.chain'_singleton, and_true]; decide)
    (by decide) (by decide)

/-- C2 counterexample: the claim "empty pattern returns the empty list" and
"empty text returns the empty list for every query" both fail on the code:
`sa_match([1], [0], "")` returns `[0]` (every position of the text), and
`sa_match("", [], "")` returns `[0]` as well (the `s == t` branch). -/
theorem C2_counterexample :
    sa_match [1] [0] [] = [0] ∧ sa_match ([] : List Nat) [] [] = [0] := by
  constructor
  · simp [sa_match, saAnsl, saAnsr, saCmp, binGo, midOf, ccmp]
  · rfl

/-- C4: for `md ≥ 0`, the two-pointer merge of strictly increasing lists is
strictly increasing, for both the AND and the OR variant; consequently
`grouped_match` output is strictly increasing for every AND and OR group
over a data-model-conforming suffix array. -/
theorem C4_strictly_increasing (md : Int) (hmd : 0 ≤ md)
    (A B : List Nat) (hA : A.Pairwise (· < ·)) (hB : B.Pairwise (· < ·))
    (str sa : List Nat) (dA : grouped_dataAND) (dO : grouped_dataOR)
    (hperm : sa.Perm (List.range str.length)) :
    (combineAND A B md).Pairwise (· < ·) ∧
      (combineOR A B md).Pairwise (· < ·) ∧
      (grouped_matchAND str sa dA md).Pairwise (· < ·) ∧
      (grouped_matchOR str sa dO md).Pairwise (· < ·) :=
  ⟨combineAND_pairwise md hmd A B hA hB, combineOR_pairwise md hmd A B hA hB,
    grouped_matchAND_pairwise str sa dA md hmd hperm,
    grouped_matchOR_pairwise str sa dO md hmd hperm⟩

/-- C4 witness: concrete lists and the "banana" text with an AND and an OR
group. -/
theorem C4_strictly_increasing_witness :
    (combineAND [0, 5] [1] 2).Pairwise (· < ·) ∧
      (combineOR [0, 5] [1] 2).Pairwise (· < ·) ∧
      (grouped_matchAND [2,1,3,1,3,1] [5,3,1,0,4,2] ⟨[[1,3],[3,1]]⟩ 2).Pairwise
        (· < ·) ∧
      (grouped_matchOR [2,1,3,1,3,1] [5,3,1,0,4,2] ⟨[[1,3],[3,1]]⟩ 2).Pairwise
        (· < ·) :=
  C4_strictly_increasing 2 (by decide) [0, 5] [1] (by decide) (by decide)
    [2,1,3,1,3,1] [5,3,1,0,4,2] ⟨[[1,3],[3,1]]⟩ ⟨[[1,3],[3,1]]⟩ (by decide)

/-- C5 (amended): `evaluate(OR([P]), md) = occ(P)`; the two-pattern OR
output is a subset of `occ(P) ∪ occ(Q)`; for `md = 0` it contains all of
`occ(P) ∪ occ(Q)` (hence the symmetric difference); and a position present
in both occurrence lists is emitted exactly once, for every `md ≥ 0`.  The
superset-of-symmetric-difference part of the original claim is restricted
to `md = 0` — for `md > 0` a position of only one list that lies within
`md` of a position of the other is collapsed away (see the
counterexample). -/
theorem C5_or_laws (str sa P Q : List Nat) (md : Int) (hmd : 0 ≤ md)
    (hperm : sa.Perm (List.range str.length)) :
    grouped_matchOR str sa ⟨[P]⟩ md = sa_match str sa P ∧
      (∀ x ∈ grouped_matchOR str sa ⟨[P, Q]⟩ md,
        x ∈ sa_match str sa P ∨ x ∈ sa_match str sa Q) ∧
      (∀ x, (x ∈ sa_match str sa P ∨ x ∈ sa_match str sa Q) →
        x ∈ grouped_matchOR str sa ⟨[P, Q]⟩ 0) ∧
      (∀ x, x ∈ sa_match str sa P → x ∈ sa_match str sa Q →
        (grouped_matchOR str sa ⟨[P, Q]⟩ md).count x = 1) := by
  have hunfold : ∀ md2 : Int, grouped_matchOR str sa ⟨[P, Q]⟩ md2 =
      combineOR (sa_match str sa P) (sa_match str sa Q) md2 := fun _ => rfl
  refine ⟨rfl, ?_, ?_, ?_⟩
  · intro x hx
    rw [hunfold md] at hx
    exact combineOR_subset md _ _ x hx
  · intro x hx
    rw [hunfold 0]
    exact combineOR_mem_zero _ _ x hx
  · intro x hxP hxQ
    have hpwP := sa_match_pairwise str sa P hperm
    have hpwQ := sa_match_pairwise str sa Q hperm
    have hmem : x ∈ combineOR (sa_match str sa P) (sa_match str sa Q) md :=
      combineOR_mem_both md x _ _ hpwP hpwQ hxP hxQ
    have hnd : (combineOR (sa_match str sa P) (sa_match str sa Q) md).Nodup :=
      (combineOR_pairwise md hmd _ _ hpwP hpwQ).imp (fun h => Nat.ne_of_lt h)
    rw [hunfold md]
    exact List.count_eq_one_of_mem hnd hmem

/-- C5 witness: text "banana", `P` = "ana", `Q` = "na", `md = 1`. -/
theorem C5_or_laws_witness :
    grouped_matchOR [2,1,3,1,3,1] [5,3,1,0,4,2] ⟨[[1,3,1]]⟩ 1 =
        sa_match [2,1,3,1,3,1] [5,3,1,0,4,2] [1,3,1] ∧
      (∀ x ∈ grouped_matchOR [2,1,3,1,3,1] [5,3,1,0,4,2] ⟨[[1,3,1],[3,1]]⟩ 1,
        x ∈ sa_match [2,1,3,1,3,1] [5,3,1,0,4,2] [1,3,1] ∨
          x ∈ sa_match [2,1,3,1,3,1] [5,3,1,0,4,2] [3,1]) ∧
      (∀ x, (x ∈ sa_match [2,1,3,1,3,1] [5,3,1,0,4,2] [1,3,1] ∨
          x ∈ sa_match [2,1,3,1,3,1] [5,3,1,0,4,2] [3,1]) →
        x ∈ grouped_matchOR [2,1,3,1,3,1] [5,3,1,0,4,2] ⟨[[1,3,1],[3,1]]⟩ 0) ∧
      (∀ x, x ∈ sa_match [2,1,3,1,3,1] [5,3,1,0,4,2] [1,3,1] →
        x ∈ sa_match [2,1,3,1,3,1] [5,3,1,0,4,2] [3,1] →
        (grouped_matchOR [2,1,3,1,3,1] [5,3,1,0,4,2]
          ⟨[[1,3,1],[3,1]]⟩ 1).count x = 1) :=
  C5_or_laws [2,1,3,1,3,1] [5,3,1,0,4,2] [1,3,1] [3,1] 1 (by decide) (by decide)

/-- C5 counterexample: text `[1,2]` with suffix array `[0,1]`,
`P = [1]` (`occ = [0]`), `Q = [2]` (`occ = [1]`), `md = 5`.  The position
`1` lies in the symmetric difference of the two occurrence lists, but the
OR merge collapses the pair `(0,1)` (distance `1 ≤ 5`) to `min = 0`, so `1`
is missing from the output: the output is not a superset of the symmetric
difference. -/
theorem C5_counterexample :
    ([0,1] : List Nat).Perm (List.range 2) ∧
      List.Chain' (SAPhraseSearch.suffixLex [1,2]) [0,1] ∧
      1 ∈ sa_match [1,2] [0,1] [2] ∧
      1 ∉ sa_match [1,2] [0,1] [1] ∧
      1 ∉ grouped_matchOR [1,2] [0,1] ⟨[[1],[2]]⟩ 5 := by
  refine ⟨by decide, ?_, ?_, ?_, ?_⟩
  · simp only [List.chain'_cons, List.chain'_singleton, and_true]
    decide
  · simp [sa_match, saAnsl, saAnsr, saCmp, binGo, midOf, ccmp]
  · simp [sa_match, saAnsl, saAnsr, saCmp, binGo, midOf, ccmp]
  · simp [grouped_matchOR, sa_match, saAnsl, saAnsr, saCmp, binGo, midOf, ccmp,
      combineOR]

end SAPS
